import Mathlib

/-!
# Bitcoin Signed Message verification (`verify.go`)

A shallow embedding of `verify.go`: message hashing, recoverable-signature
parsing, public-key recovery and address derivation, followed by the
membership test of `VerifyMessage`.

Conventions of the embedding.

* A Go `string` and a Go `[]byte` value are sequences of bytes: `List Byte`.
  A slice whose capacity matters (the result of the base64 decoder) is a
  `Slice`, which keeps the backing array up to the capacity.
* A Go function that returns `(value, error)` and may also stop with a
  run-time panic returns `Res`: `ok`, `err` (an `error` value was returned)
  or `panic`.
* `big.Int` values that are produced by `SetBytes`, sums, products and
  Euclidean remainders of such values are natural numbers (`Nat`).
* The packages imported by `verify.go` (`crypto/sha256`, `ripemd160`,
  `encoding/base64`, `base58-go`, `math/big`) are modelled by executable
  definitions that follow their published algorithms. The elliptic-curve
  package `secp256k1` is a parameter (`CurveOps`); `gocoin` is the instance
  with the arithmetic of the curve secp256k1.
-/

namespace Bitcoin

/-! ## Bytes, results, slices -/

/-- One byte. -/
abbrev Byte := Fin 256

/-- The bytes of a string literal made of ASCII characters. -/
def asciiBytes (s : String) : List Byte :=
  s.toList.map (fun c => Fin.ofNat c.toNat)

/-- Outcome of a Go call: a value, a returned `error`, or a run-time panic. -/
inductive Res (α : Type) where
  | ok : α → Res α
  | err : String → Res α
  | panic : String → Res α
deriving DecidableEq, Repr

namespace Res

/-- The call returned a non-nil `error`. -/
def isErr {α : Type} : Res α → Bool
  | err _ => true
  | _ => false

/-- The call stopped with a run-time panic. -/
def isPanic {α : Type} : Res α → Bool
  | panic _ => true
  | _ => false

/-- The call returned normally with a nil `error`. -/
def isOk {α : Type} : Res α → Bool
  | ok _ => true
  | _ => false

/-- The value returned by a call, transformed by `f`. -/
def map {α β : Type} (f : α → β) : Res α → Res β
  | ok a => ok (f a)
  | err e => err e
  | panic e => panic e

/-- Sequencing of two calls: `x, err := r; if err != nil { return err }; f x`.
An error of the first call is returned as it is and a panic stops the
execution. -/
def bind {α β : Type} (r : Res α) (f : α → Res β) : Res β :=
  match r with
  | ok a => f a
  | err e => err e
  | panic e => panic e

end Res

/-- A Go byte slice together with its capacity: `arr` is the backing array from
the start of the slice up to its capacity, `len` is the length of the slice. -/
structure Slice where
  arr : List Byte
  len : Nat
  len_le : len ≤ arr.length

namespace Slice

/-- Capacity of the slice, `cap(s)`. -/
def cap (s : Slice) : Nat := s.arr.length

/-- The elements of the slice, `s[0:len(s)]`. -/
def payload (s : Slice) : List Byte := s.arr.take s.len

/-- Index expression `s[i]`: panics unless `i < len(s)`. -/
def index (s : Slice) (i : Nat) : Res Byte :=
  if i < s.len then Res.ok (s.arr.getD i 0)
  else Res.panic "index out of range"

/-- Slice expression `s[lo:hi]` with constant `lo ≤ hi`: panics unless
`hi ≤ cap(s)`; the result has the elements `lo .. hi` of the backing array. -/
def slice (s : Slice) (lo hi : Nat) : Res (List Byte) :=
  if hi ≤ s.cap then Res.ok ((s.arr.drop lo).take (hi - lo))
  else Res.panic "slice bounds out of range"

end Slice

/-! ## `math/big` -/

/-- Model of `big.Int.SetBytes`: the bytes read as a big-endian unsigned integer. -/
def beNat (bs : List Byte) : Nat :=
  bs.foldl (fun acc b => acc * 256 + b.val) 0

/-- Little-endian digits of `n` in base 256, for at most `fuel` digits. -/
def leDigits : Nat → Nat → List Byte
  | 0, _ => []
  | fuel + 1, n => if n = 0 then [] else Fin.ofNat (n % 256) :: leDigits fuel (n / 256)

/-- Model of `big.Int.Bytes`: the minimal big-endian representation of `n` (empty for 0). -/
def natBytes (n : Nat) : List Byte :=
  (leDigits n n).reverse

/-- Model of `big.Int.ModInverse(g, n)`: the inverse of `g` modulo `n` in `[0, n)` when
`g` and `n` are coprime; otherwise the receiver is left unchanged, and the
receiver in `recover` is a fresh zero value. -/
def modInverse (g n : Nat) : Nat :=
  if Nat.gcd g n = 1 then Int.toNat (Nat.gcdA g n % (n : Int)) else 0

/-! ## `crypto/sha256` -/

/-- Addition of 32-bit words. -/
def add32 (a b : Nat) : Nat := (a + b) % 2 ^ 32

/-- Rotate a 32-bit word right by `n` bits. -/
def rotr32 (x n : Nat) : Nat := ((x >>> n) ||| (x <<< (32 - n))) % 2 ^ 32

/-- Rotate a 32-bit word left by `n` bits. -/
def rotl32 (x n : Nat) : Nat := ((x <<< n) ||| (x >>> (32 - n))) % 2 ^ 32

/-- Bitwise complement of a 32-bit word. -/
def not32 (x : Nat) : Nat := (2 ^ 32 - 1) ^^^ (x % 2 ^ 32)

/-- The four bytes of a 32-bit word, most significant first. -/
def be32 (w : Nat) : List Byte :=
  [Fin.ofNat (w / 2 ^ 24), Fin.ofNat (w / 2 ^ 16), Fin.ofNat (w / 2 ^ 8), Fin.ofNat w]

/-- The four bytes of a 32-bit word, least significant first. -/
def le32 (w : Nat) : List Byte :=
  [Fin.ofNat w, Fin.ofNat (w / 2 ^ 8), Fin.ofNat (w / 2 ^ 16), Fin.ofNat (w / 2 ^ 24)]

/-- The eight bytes of a 64-bit word, most significant first. -/
def be64 (w : Nat) : List Byte :=
  be32 (w / 2 ^ 32 % 2 ^ 32) ++ be32 (w % 2 ^ 32)

/-- The eight bytes of a 64-bit word, least significant first. -/
def le64 (w : Nat) : List Byte :=
  le32 (w % 2 ^ 32) ++ le32 (w / 2 ^ 32 % 2 ^ 32)

/-- Little-endian value of a list of bytes. -/
def leNat (bs : List Byte) : Nat :=
  bs.foldr (fun b acc => b.val + 256 * acc) 0

/-- Block `i` (of `size` bytes) of a padded message. -/
def block (size : Nat) (bs : List Byte) (i : Nat) : List Byte :=
  (bs.drop (size * i)).take size

/-- Merkle–Damgård padding to a multiple of 64 bytes: `0x80`, zero bytes, and
the bit length in eight bytes written by `lenBytes`. -/
def mdPad (lenBytes : Nat → List Byte) (msg : List Byte) : List Byte :=
  msg ++ [(0x80 : Byte)] ++ List.replicate ((119 - msg.length % 64) % 64) (0 : Byte)
    ++ lenBytes (msg.length * 8 % 2 ^ 64)

/-- Round constants of SHA-256. -/
def sha256K : List Nat :=
  [0x428a2f98, 0x71374491, 0xb5c0fbcf, 0xe9b5dba5, 0x3956c25b, 0x59f111f1, 0x923f82a4, 0xab1c5ed5,
   0xd807aa98, 0x12835b01, 0x243185be, 0x550c7dc3, 0x72be5d74, 0x80deb1fe, 0x9bdc06a7, 0xc19bf174,
   0xe49b69c1, 0xefbe4786, 0x0fc19dc6, 0x240ca1cc, 0x2de92c6f, 0x4a7484aa, 0x5cb0a9dc, 0x76f988da,
   0x983e5152, 0xa831c66d, 0xb00327c8, 0xbf597fc7, 0xc6e00bf3, 0xd5a79147, 0x06ca6351, 0x14292967,
   0x27b70a85, 0x2e1b2138, 0x4d2c6dfc, 0x53380d13, 0x650a7354, 0x766a0abb, 0x81c2c92e, 0x92722c85,
   0xa2bfe8a1, 0xa81a664b, 0xc24b8b70, 0xc76c51a3, 0xd192e819, 0xd6990624, 0xf40e3585, 0x106aa070,
   0x19a4c116, 0x1e376c08, 0x2748774c, 0x34b0bcb5, 0x391c0cb3, 0x4ed8aa4a, 0x5b9cca4f, 0x682e6ff3,
   0x748f82ee, 0x78a5636f, 0x84c87814, 0x8cc70208, 0x90befffa, 0xa4506ceb, 0xbef9a3f7, 0xc67178f2]

/-- Chaining value of SHA-256: eight 32-bit words. -/
structure Sha256State where
  a : Nat
  b : Nat
  c : Nat
  d : Nat
  e : Nat
  f : Nat
  g : Nat
  h : Nat

/-- Initial chaining value of SHA-256. -/
def sha256Init : Sha256State :=
  ⟨0x6a09e667, 0xbb67ae85, 0x3c6ef372, 0xa54ff53a, 0x510e527f, 0x9b05688c, 0x1f83d9ab, 0x5be0cd19⟩

/-- Message schedule of SHA-256: the 16 words of the block extended to 64. -/
def sha256Schedule (blk : List Byte) : List Nat :=
  let w0 := (List.range 16).map (fun i => beNat ((blk.drop (4 * i)).take 4))
  (List.range 48).foldl (fun w j =>
    let t := j + 16
    let x15 := w.getD (t - 15) 0
    let x2 := w.getD (t - 2) 0
    let s0 := rotr32 x15 7 ^^^ rotr32 x15 18 ^^^ (x15 >>> 3)
    let s1 := rotr32 x2 17 ^^^ rotr32 x2 19 ^^^ (x2 >>> 10)
    w ++ [add32 (add32 (add32 s1 (w.getD (t - 7) 0)) s0) (w.getD (t - 16) 0)]) w0

/-- One round of the SHA-256 compression function. -/
def sha256Round (s : Sha256State) (k w : Nat) : Sha256State :=
  let s1 := rotr32 s.e 6 ^^^ rotr32 s.e 11 ^^^ rotr32 s.e 25
  let ch := (s.e &&& s.f) ^^^ (not32 s.e &&& s.g)
  let t1 := add32 (add32 (add32 (add32 s.h s1) ch) k) w
  let s0 := rotr32 s.a 2 ^^^ rotr32 s.a 13 ^^^ rotr32 s.a 22
  let maj := (s.a &&& s.b) ^^^ (s.a &&& s.c) ^^^ (s.b &&& s.c)
  let t2 := add32 s0 maj
  ⟨add32 t1 t2, s.a, s.b, s.c, add32 s.d t1, s.e, s.f, s.g⟩

/-- Compression of one 64-byte block into the chaining value. -/
def sha256Compress (s : Sha256State) (blk : List Byte) : Sha256State :=
  let w := sha256Schedule blk
  let r := (List.range 64).foldl (fun st i => sha256Round st (sha256K.getD i 0) (w.getD i 0)) s
  ⟨add32 s.a r.a, add32 s.b r.b, add32 s.c r.c, add32 s.d r.d,
   add32 s.e r.e, add32 s.f r.f, add32 s.g r.g, add32 s.h r.h⟩

/-- Model of `sha256.Sum256`: the SHA-256 digest (32 bytes). -/
def sha256 (msg : List Byte) : List Byte :=
  let p := mdPad be64 msg
  let s := (List.range (p.length / 64)).foldl (fun st i => sha256Compress st (block 64 p i)) sha256Init
  be32 s.a ++ be32 s.b ++ be32 s.c ++ be32 s.d ++ be32 s.e ++ be32 s.f ++ be32 s.g ++ be32 s.h

/-! ## `golang.org/x/crypto/ripemd160` -/

/-- Message-word order of the left line of RIPEMD-160. -/
def ripemdRL : List Nat :=
  [0, 1, 2, 3, 4, 5, 6, 7, 8, 9, 10, 11, 12, 13, 14, 15,
   7, 4, 13, 1, 10, 6, 15, 3, 12, 0, 9, 5, 2, 14, 11, 8,
   3, 10, 14, 4, 9, 15, 8, 1, 2, 7, 0, 6, 13, 11, 5, 12,
   1, 9, 11, 10, 0, 8, 12, 4, 13, 3, 7, 15, 14, 5, 6, 2,
   4, 0, 5, 9, 7, 12, 2, 10, 14, 1, 3, 8, 11, 6, 15, 13]

/-- Message-word order of the right line of RIPEMD-160. -/
def ripemdRR : List Nat :=
  [5, 14, 7, 0, 9, 2, 11, 4, 13, 6, 15, 8, 1, 10, 3, 12,
   6, 11, 3, 7, 0, 13, 5, 10, 14, 15, 8, 12, 4, 9, 1, 2,
   15, 5, 1, 3, 7, 14, 6, 9, 11, 8, 12, 2, 10, 0, 4, 13,
   8, 6, 4, 1, 3, 11, 15, 0, 5, 12, 2, 13, 9, 7, 10, 14,
   12, 15, 10, 4, 1, 5, 8, 7, 6, 2, 13, 14, 0, 3, 9, 11]

/-- Rotation amounts of the left line of RIPEMD-160. -/
def ripemdSL : List Nat :=
  [11, 14, 15, 12, 5, 8, 7, 9, 11, 13, 14, 15, 6, 7, 9, 8,
   7, 6, 8, 13, 11, 9, 7, 15, 7, 12, 15, 9, 11, 7, 13, 12,
   11, 13, 6, 7, 14, 9, 13, 15, 14, 8, 13, 6, 5, 12, 7, 5,
   11, 12, 14, 15, 14, 15, 9, 8, 9, 14, 5, 6, 8, 6, 5, 12,
   9, 15, 5, 11, 6, 8, 13, 12, 5, 12, 13, 14, 11, 8, 5, 6]

/-- Rotation amounts of the right line of RIPEMD-160. -/
def ripemdSR : List Nat :=
  [8, 9, 9, 11, 13, 15, 15, 5, 7, 7, 8, 11, 14, 14, 12, 6,
   9, 13, 15, 7, 12, 8, 9, 11, 7, 7, 12, 7, 6, 15, 13, 11,
   9, 7, 15, 11, 8, 6, 6, 14, 12, 13, 5, 14, 13, 13, 7, 5,
   15, 5, 8, 11, 14, 14, 6, 14, 6, 9, 12, 9, 12, 5, 15, 8,
   8, 5, 12, 9, 12, 5, 14, 6, 8, 13, 6, 5, 15, 13, 11, 11]

/-- Added constants of the left line, one per group of 16 steps. -/
def ripemdKL : List Nat := [0x00000000, 0x5a827999, 0x6ed9eba1, 0x8f1bbcdc, 0xa953fd4e]

/-- Added constants of the right line, one per group of 16 steps. -/
def ripemdKR : List Nat := [0x50a28be6, 0x5c4dd124, 0x6d703ef3, 0x7a6d76e9, 0x00000000]

/-- The five boolean functions of RIPEMD-160, selected by the group `i`. -/
def ripemdF (i x y z : Nat) : Nat :=
  match i with
  | 0 => x ^^^ y ^^^ z
  | 1 => (x &&& y) ||| (not32 x &&& z)
  | 2 => (x ||| not32 y) ^^^ z
  | 3 => (x &&& z) ||| (y &&& not32 z)
  | _ => x ^^^ (y ||| not32 z)

/-- Chaining value of RIPEMD-160: five 32-bit words. -/
structure RipemdState where
  a : Nat
  b : Nat
  c : Nat
  d : Nat
  e : Nat

/-- Initial chaining value of RIPEMD-160. -/
def ripemdInit : RipemdState :=
  ⟨0x67452301, 0xefcdab89, 0x98badcfe, 0x10325476, 0xc3d2e1f0⟩

/-- One step of a line of RIPEMD-160 with boolean function `f`, message word
`x`, constant `k` and rotation `s`. -/
def ripemdStep (st : RipemdState) (f x k s : Nat) : RipemdState :=
  let t := add32 (rotl32 (add32 (add32 (add32 st.a f) x) k) s) st.e
  ⟨st.e, t, st.b, rotl32 st.c 10, st.d⟩

/-- Compression of one 64-byte block into the chaining value. -/
def ripemdCompress (h : RipemdState) (blk : List Byte) : RipemdState :=
  let x := (List.range 16).map (fun i => leNat ((blk.drop (4 * i)).take 4))
  let l := (List.range 80).foldl (fun st j =>
    ripemdStep st (ripemdF (j / 16) st.b st.c st.d) (x.getD (ripemdRL.getD j 0) 0)
      (ripemdKL.getD (j / 16) 0) (ripemdSL.getD j 0)) h
  let r := (List.range 80).foldl (fun st j =>
    ripemdStep st (ripemdF (4 - j / 16) st.b st.c st.d) (x.getD (ripemdRR.getD j 0) 0)
      (ripemdKR.getD (j / 16) 0) (ripemdSR.getD j 0)) h
  ⟨add32 (add32 h.b l.c) r.d, add32 (add32 h.c l.d) r.e, add32 (add32 h.d l.e) r.a,
   add32 (add32 h.e l.a) r.b, add32 (add32 h.a l.b) r.c⟩

/-- The RIPEMD-160 digest (20 bytes): `ripemd160.New`, `Write`, `Sum(nil)`. -/
def ripemd160 (msg : List Byte) : List Byte :=
  let p := mdPad le64 msg
  let s := (List.range (p.length / 64)).foldl (fun st i => ripemdCompress st (block 64 p i)) ripemdInit
  le32 s.a ++ le32 s.b ++ le32 s.c ++ le32 s.d ++ le32 s.e

/-! ## `encoding/base64`: `StdEncoding.DecodeString` -/

/-- Value of a character of the standard base64 alphabet. -/
def b64Val (c : Byte) : Option Nat :=
  if 65 ≤ c.val ∧ c.val ≤ 90 then some (c.val - 65)
  else if 97 ≤ c.val ∧ c.val ≤ 122 then some (c.val - 71)
  else if 48 ≤ c.val ∧ c.val ≤ 57 then some (c.val + 4)
  else if c.val = 43 then some 62
  else if c.val = 47 then some 63
  else none

/-- The decoder skips carriage returns and line feeds. -/
def isNewline (c : Byte) : Bool := c.val = 10 || c.val = 13

/-- The three bytes of a quantum of four 6-bit values. -/
def quantumBytes (a b c d : Nat) : List Byte :=
  let v := a * 2 ^ 18 + b * 2 ^ 12 + c * 2 ^ 6 + d
  [Fin.ofNat (v / 2 ^ 16), Fin.ofNat (v / 2 ^ 8), Fin.ofNat v]

/-- After the padding of the last quantum only newlines may follow. -/
def b64Tail (out rest : List Byte) : Res (List Byte) :=
  if rest.dropWhile isNewline = [] then Res.ok out
  else Res.err "illegal base64 data: trailing garbage"

/-- A padding character was read after the 6-bit values `acc` of the current
quantum; `rest` is the input after that character. -/
def b64Pad (acc : List Nat) (out rest : List Byte) : Res (List Byte) :=
  match acc with
  | [a, b] =>
    match rest.dropWhile isNewline with
    | [] => Res.err "illegal base64 data: not enough padding"
    | c :: rest2 =>
      if c.val = 61 then b64Tail (out ++ (quantumBytes a b 0 0).take 1) rest2
      else Res.err "illegal base64 data: incorrect padding"
  | [a, b, c] => b64Tail (out ++ (quantumBytes a b c 0).take 2) rest
  | _ => Res.err "illegal base64 data: incorrect padding"

/-- The decoding loop: `acc` holds the 6-bit values of the current quantum,
`out` the bytes decoded so far. -/
def b64Loop : List Byte → List Nat → List Byte → Res (List Byte)
  | [], acc, out =>
    if acc = [] then Res.ok out else Res.err "illegal base64 data: incomplete quantum"
  | c :: rest, acc, out =>
    match b64Val c with
    | some v =>
      match acc with
      | [a, b, d] => b64Loop rest [] (out ++ quantumBytes a b d v)
      | _ => b64Loop rest (acc ++ [v]) out
    | none =>
      if isNewline c then b64Loop rest acc out
      else if c.val = 61 then b64Pad acc out rest
      else Res.err "illegal base64 data"

/-- Model of `StdEncoding.DecodedLen(n)` for the padded encoding. -/
def decodedLen (n : Nat) : Nat := n / 4 * 3

/-- Model of `base64.StdEncoding.DecodeString`: the decoder writes into a zeroed buffer of
`DecodedLen(len(s))` bytes and returns its first `n` bytes, so the result keeps
the capacity of that buffer. -/
def DecodeString (s : List Byte) : Res Slice :=
  match b64Loop s [] [] with
  | Res.ok out =>
    Res.ok ⟨out ++ List.replicate (decodedLen s.length - out.length) 0, out.length, by simp⟩
  | Res.err e => Res.err e
  | Res.panic e => Res.panic e

/-! ## `github.com/itchyny/base58-go`: `BitcoinEncoding.Encode` -/

/-- The Bitcoin base58 alphabet. -/
def base58Alphabet : List Byte :=
  asciiBytes "123456789ABCDEFGHJKLMNPQRSTUVWXYZabcdefghijkmnopqrstuvwxyz"

/-- Little-endian digits of `n` in base `b`, for at most `fuel` digits. -/
def digitsLE (b : Nat) : Nat → Nat → List Nat
  | 0, _ => []
  | fuel + 1, n => if n = 0 then [] else n % b :: digitsLE b fuel (n / b)

/-- Model of `big.Int.String`: the decimal numeral of a natural number. -/
def decString (n : Nat) : List Byte :=
  if n = 0 then [48] else ((digitsLE 10 n n).map (fun d => (Fin.ofNat (48 + d) : Byte))).reverse

/-- Value of a non-empty sequence of decimal digits. -/
def parseDigits (ds : List Byte) : Option Nat :=
  if ds ≠ [] ∧ ds.all (fun c => decide (48 ≤ c.val ∧ c.val ≤ 57)) = true then
    some (ds.foldl (fun acc c => acc * 10 + (c.val - 48)) 0)
  else none

/-- Model of `big.Int.SetString(s, 10)`: an optional sign followed by decimal digits. -/
def parseInt10 (s : List Byte) : Option Int :=
  match s with
  | [] => none
  | c :: ds =>
    if c.val = 45 then (parseDigits ds).map (fun n => -(n : Int))
    else if c.val = 43 then (parseDigits ds).map (fun n => (n : Int))
    else (parseDigits (c :: ds)).map (fun n => (n : Int))

/-- Model of `base58.BitcoinEncoding.Encode`: `src` is a decimal numeral; every leading
character `0` of `src` yields the first letter of the alphabet, followed by
the base-58 digits of the number, most significant first. -/
def base58Encode (src : List Byte) : Res (List Byte) :=
  if src = [] then Res.ok []
  else
    match parseInt10 src with
    | none => Res.err "expecting a number"
    | some n =>
      if n < 0 then Res.err "expecting a non-negative number in base58 encoding"
      else
        Res.ok (List.replicate (src.takeWhile (fun c => decide (c.val = 48))).length (base58Alphabet.getD 0 0)
          ++ ((digitsLE 58 n.toNat n.toNat).map (fun d => base58Alphabet.getD d 0)).reverse)

/-! ## `github.com/piotrnar/gocoin/lib/secp256k1` -/

/-- The operations of the package `secp256k1` that `verify.go` calls. `F`, `XY`
and `XYZ` are the types `Field`, `XY` (affine point) and `XYZ` (Jacobian
point); `order` is `TheCurve.Order`. `getPublicKey p out` is the content of the
buffer `out` after `p.GetPublicKey(out)`: the callee writes into the buffer
and cannot change its length. -/
structure CurveOps where
  F : Type
  XY : Type
  XYZ : Type
  order : Nat
  zeroXY : XY
  setB32 : List Byte → F
  setXO : F → Bool → XY
  isValid : XY → Bool
  setXY : XY → XYZ
  ecmult : XYZ → Nat → Nat → XYZ
  setXYZ : XYZ → XY
  getPublicKey : XY → List Byte → List Byte
  getPublicKey_length : ∀ (p : XY) (out : List Byte), (getPublicKey p out).length = out.length

/-- Type `secp256k1.Signature`: the numbers `R` and `S`. -/
structure Signature where
  R : Nat
  S : Nat
deriving DecidableEq, Repr

/-! ## `verify.go` -/

/-- Function `sha256d`: SHA-256 applied twice. -/
def sha256d (body : List Byte) : List Byte :=
  let msghash1 := sha256 body
  let msghash2 := sha256 msghash1
  msghash2

/-- Constant `hBSV`: the magic header of Bitcoin Signed Messages, "Bitcoin Signed Message:\n". -/
def hBSV : List Byte := asciiBytes "Bitcoin Signed Message:\n"

/-- Function `messagehash`: the double SHA-256 of the length-prefixed header and message. -/
def messagehash (message header : List Byte) : Res (List Byte) :=
  let hlen := header.length
  if hlen ≥ 0xfd then Res.err "long header is not supported"
  else
    let mlen := message.length
    if mlen ≥ 0xfd then Res.err "long message is not supported"
    else
      let bitcoinmsg : List Byte := [Fin.ofNat hlen]
      let bitcoinmsg := bitcoinmsg ++ header
      let bitcoinmsg := bitcoinmsg ++ [Fin.ofNat mlen]
      let bitcoinmsg := bitcoinmsg ++ message
      Res.ok (sha256d bitcoinmsg)

/-- Function `parseSignature`: decode the base64 signature, read the recovery id from
byte 0 and the numbers `R` and `S` from bytes 1..33 and 33..65. -/
def parseSignature (signature : List Byte) : Res (Signature × Int) :=
  (DecodeString signature).bind fun sigraw =>
  (sigraw.index 0).bind fun b0 =>
  let r0 : Byte := b0 - 27
  let recid : Int := ((r0 &&& 3 : Byte).val : Int)
  let compressed : Bool := decide ((r0 &&& 4) = 1)
  if compressed then Res.err "compressed type is not supported"
  else
    (sigraw.slice 1 (1 + 32)).bind fun rbytes =>
    (sigraw.slice (1 + 32) (1 + 32 + 32)).bind fun sbytes =>
    Res.ok (⟨beNat rbytes, beNat sbytes⟩, recid)

/-- Function `pubtoaddr`: version bytes, hash160 of the serialized public key and the
first four bytes of the double SHA-256 of both. -/
def pubtoaddr (C : CurveOps) (pubkeyXy2 : C.XY) (compressed : Bool) (magic : List Byte) :
    List Byte :=
  let size := if compressed then 33 else 65
  let out := C.getPublicKey pubkeyXy2 (List.replicate size 0)
  let pubHash1 := sha256 out
  let pubHash2 := ripemd160 pubHash1
  let bcpy := magic ++ pubHash2
  let hash2 := sha256d bcpy
  bcpy ++ hash2.take 4

/-- The loop of `addrToStr`: one character `1` in front of `s` for every
leading zero byte. -/
def prependOnes : List Byte → List Byte → List Byte
  | [], s => s
  | v :: rest, s => if v ≠ 0 then s else prependOnes rest (asciiBytes "1" ++ s)

/-- Function `addrToStr`: base58 numeral of the bytes read as a big-endian integer,
preceded by one `1` per leading zero byte. -/
def addrToStr (bcpy : List Byte) : Res (List Byte) :=
  let z := beNat bcpy
  (base58Encode (decString z)).bind fun encdd =>
  Res.ok (prependOnes bcpy encdd)

/-- Function `getBin`: the bytes of `num` left-padded with zeros to `le` bytes. -/
def getBin (num : Nat) (le : Nat) : Res (List Byte) :=
  let bts := natBytes num
  if bts.length > le then Res.panic "buffer too small"
  else if bts.length = le then Res.ok bts
  else Res.ok (List.replicate (le - bts.length) 0 ++ bts)

/-- The field prime written out in `recover`. -/
def theCurveP : Nat :=
  beNat [0xFF, 0xFF, 0xFF, 0xFF, 0xFF, 0xFF, 0xFF, 0xFF, 0xFF, 0xFF, 0xFF, 0xFF, 0xFF, 0xFF, 0xFF, 0xFF,
    0xFF, 0xFF, 0xFF, 0xFF, 0xFF, 0xFF, 0xFF, 0xFF, 0xFF, 0xFF, 0xFF, 0xFE, 0xFF, 0xFF, 0xFC, 0x2F]

/-- Lines 157 to 178 of `recover`: from the candidate x-coordinate `rx` to the
public key. The result is the returned boolean and the value of `*pubkey`. -/
def recoverPoint (C : CurveOps) (sig : Signature) (pubkey : C.XY) (m : Nat) (recid : Int)
    (rx : Nat) : Res (Bool × C.XY) :=
  (getBin rx 32).bind fun b32 =>
  let fx := C.setB32 b32
  let X := C.setXO fx (decide (Int.land recid 1 ≠ 0))
  if !C.isValid X then Res.ok (false, pubkey)
  else
    let xj := C.setXY X
    let rn := modInverse sig.R C.order
    let u1 := rn * m
    let u1 := u1 % C.order
    let u1 := C.order - u1
    let u2 := rn * sig.S
    let u2 := u2 % C.order
    let qj := C.ecmult xj u2 u1
    Res.ok (true, C.setXYZ qj)

/-- Function `recover`: public-key recovery. The result is the returned boolean and the
value of `*pubkey` after the call. -/
def recover (C : CurveOps) (sig : Signature) (pubkey : C.XY) (m : Nat) (recid : Int) :
    Res (Bool × C.XY) :=
  let rx := sig.R
  if Int.land recid 2 ≠ 0 then
    let rx := rx + C.order
    if rx ≥ theCurveP then Res.ok (false, pubkey)
    else recoverPoint C sig pubkey m recid rx
  else recoverPoint C sig pubkey m recid rx

/-- Function `sigmestoaddr`: the two candidate addresses (compressed and uncompressed
serialization) of the public key recovered from the signature. -/
def sigmestoaddr (C : CurveOps) (signature message : List Byte) : Res (List (List Byte)) :=
  (messagehash message hBSV).bind fun msghash2 =>
  (parseSignature signature).bind fun parsed =>
  let sig := parsed.1
  let recid := parsed.2
  let msg := beNat msghash2
  (recover C sig C.zeroXY msg recid).bind fun recovered =>
  let ret2 := recovered.1
  let pubkeyXy2 := recovered.2
  if !ret2 then Res.err "recover pubkey failed"
  else
    (addrToStr (pubtoaddr C pubkeyXy2 true [0])).bind fun s0 =>
    (addrToStr (pubtoaddr C pubkeyXy2 false [0])).bind fun s1 =>
    Res.ok [s0, s1]

/-- The loop of `VerifyMessage`: is `address` one of `addrs`? -/
def matchAny (address : List Byte) : List (List Byte) → Bool
  | [] => false
  | addr2 :: rest => if address = addr2 then true else matchAny address rest

/-- Function `VerifyMessage`: every error of `sigmestoaddr` gives `false`. -/
def VerifyMessage (C : CurveOps) (address signature data : List Byte) : Res Bool :=
  match sigmestoaddr C signature data with
  | Res.err _ => Res.ok false
  | Res.panic e => Res.panic e
  | Res.ok addrs => Res.ok (matchAny address addrs)

/-! ## The instance `gocoin`: arithmetic of the curve secp256k1

The field is the integers modulo `theCurveP`; a `Field` value loaded by
`SetB32` holds the 256-bit integer of the 32 bytes, and every operation on it
computes modulo the prime. Points are kept in affine coordinates. -/

/-- Power `base ^ e` modulo `m` by repeated squaring (`fuel` bounds the bit length of `e`). -/
def powMod (m : Nat) : Nat → Nat → Nat → Nat → Nat
  | 0, _, _, acc => acc
  | fuel + 1, base, e, acc =>
    if e = 0 then acc
    else powMod m fuel (base * base % m) (e / 2) (if e % 2 = 1 then acc * base % m else acc)

/-- Inverse in the field, `a ^ (p - 2)`. -/
def fieldInv (a : Nat) : Nat := powMod theCurveP 256 (a % theCurveP) (theCurveP - 2) 1

/-- Model of `Field.Sqrt`: `a ^ ((p + 1) / 4)`, a square root of `a` when `a` is a square. -/
def fieldSqrt (a : Nat) : Nat := powMod theCurveP 256 (a % theCurveP) ((theCurveP + 1) / 4) 1

/-- An affine point: coordinates and the flag `Infinity`. -/
structure Point where
  x : Nat
  y : Nat
  infinity : Bool
deriving DecidableEq, Repr

/-- The generator of secp256k1. -/
def generator : Point :=
  ⟨0x79BE667EF9DCBBAC55A06295CE870B07029BFCDB2DCE28D959F2815B16F81798,
   0x483ADA7726A3C4655DA4FBFC0E1108A8FD17B448A68554199C47D08FFB10D4B8, false⟩

/-- The order of the group generated by `generator`. -/
def secpOrder : Nat := 0xFFFFFFFFFFFFFFFFFFFFFFFFFFFFFFFEBAAEDCE6AF48A03BBFD25E8CD0364141

/-- Model of `XY.SetXO`: the point with x-coordinate `x` whose y-coordinate has the
requested parity; `x` is stored as given. -/
def pointSetXO (x : Nat) (odd : Bool) : Point :=
  let y := fieldSqrt (x * x % theCurveP * x + 7)
  ⟨x, if decide (y % 2 = 1) != odd then (theCurveP - y) % theCurveP else y, false⟩

/-- Model of `XY.IsValid`: not the point at infinity and `y² = x³ + 7` in the field. -/
def pointIsValid (a : Point) : Bool :=
  if a.infinity then false
  else decide (a.y * a.y % theCurveP = (a.x * a.x % theCurveP * a.x + 7) % theCurveP)

/-- Doubling of an affine point. -/
def pointDouble (a : Point) : Point :=
  if a.infinity || a.y % theCurveP = 0 then ⟨0, 0, true⟩
  else
    let p := theCurveP
    let l := 3 * (a.x * a.x % p) % p * fieldInv (2 * a.y) % p
    let x3 := (l * l + 2 * (p - a.x % p)) % p
    ⟨x3, (l * (a.x % p + (p - x3)) + (p - a.y % p)) % p, false⟩

/-- Addition of affine points. -/
def pointAdd (a b : Point) : Point :=
  if a.infinity then b
  else if b.infinity then a
  else
    let p := theCurveP
    if a.x % p = b.x % p then
      if a.y % p = b.y % p then pointDouble a else ⟨0, 0, true⟩
    else
      let l := (b.y % p + (p - a.y % p)) % p * fieldInv (b.x % p + (p - a.x % p)) % p
      let x3 := (l * l + (p - a.x % p) + (p - b.x % p)) % p
      ⟨x3, (l * (a.x % p + (p - x3)) + (p - a.y % p)) % p, false⟩

/-- Scalar multiple `k * a` by double-and-add (`fuel` bounds the bit length of `k`). -/
def pointMul : Nat → Nat → Point → Point
  | 0, _, _ => ⟨0, 0, true⟩
  | fuel + 1, k, a =>
    if k = 0 then ⟨0, 0, true⟩
    else
      let h := pointDouble (pointMul fuel (k / 2) a)
      if k % 2 = 1 then pointAdd h a else h

/-- Model of `XYZ.ECmult`: `na * a + ng * G`. -/
def pointECmult (a : Point) (na ng : Nat) : Point :=
  pointAdd (pointMul 512 na a) (pointMul 512 ng generator)

/-- Model of `Field.GetB32`: the 32 big-endian bytes of a normalized field element. -/
def toB32 (n : Nat) : List Byte :=
  (List.range 32).map (fun i => (Fin.ofNat (n % theCurveP / 256 ^ (31 - i)) : Byte))

/-- Model of `XY.GetPublicKey`: 65 bytes `04 x y` when the buffer has 65 bytes, otherwise
33 bytes `02 x` or `03 x` by the parity of `y`; the length of the buffer decides. -/
def pointGetPublicKey (a : Point) (out : List Byte) : List Byte :=
  if out.length = 65 then [(4 : Byte)] ++ toB32 a.x ++ toB32 a.y
  else if out.length = 33 then [if a.y % theCurveP % 2 = 1 then (3 : Byte) else 2] ++ toB32 a.x
  else out

/-- The package `secp256k1` of gocoin. At the point at infinity the model keeps
the flag `Infinity` with zero coordinates, whereas the library leaves in the
coordinates what its arithmetic has produced: a point at infinity is to be
read through its flag only. -/
def gocoin : CurveOps where
  F := Nat
  XY := Point
  XYZ := Point
  order := secpOrder
  zeroXY := ⟨0, 0, false⟩
  setB32 := beNat
  setXO := pointSetXO
  isValid := pointIsValid
  setXY := id
  ecmult := pointECmult
  setXYZ := id
  getPublicKey := pointGetPublicKey
  getPublicKey_length := by
    intro a out
    unfold pointGetPublicKey
    split
    · simp [toB32]; omega
    · split
      · simp [toB32]; omega
      · rfl

/-! ## Sample inputs

A signature of the message "hello world" made with the private key 1 (public
key `generator`) and the nonce 12345, in the two usual encodings of the header
byte: 28 (recovery id 1, uncompressed key) and 32 (recovery id 1, compressed
key, header bit 4 set). -/

/-- The message "hello world". -/
def helloWorld : List Byte := asciiBytes "hello world"

/-- The signature with header byte 28, in base64. -/
def sigUncompressed : List Byte :=
  asciiBytes "HPAda5AYq0Id1BBATLhpByBlUiv4VzQAjxBc84WgI6gP/Q4SJEyS0/zzrAftRa8252mthDJmrqwwu7I5Im6MZsw="

/-- The same signature with header byte 32 (compressed bit set), in base64. -/
def sigCompressed : List Byte :=
  asciiBytes "IPAda5AYq0Id1BBATLhpByBlUiv4VzQAjxBc84WgI6gP/Q4SJEyS0/zzrAftRa8252mthDJmrqwwu7I5Im6MZsw="

/-- The first 64 bytes of the signature with header byte 28, in base64. -/
def sigShort : List Byte :=
  asciiBytes "HPAda5AYq0Id1BBATLhpByBlUiv4VzQAjxBc84WgI6gP/Q4SJEyS0/zzrAftRa8252mthDJmrqwwu7I5Im6MZg=="

/-- The numbers `R` and `S` of the sample signature. -/
def sampleSig : Signature :=
  ⟨108607064596551879580190606910245687803607295064141551927605737287325610911759,
   114460011760529751621520751256453463838575976217179962079391543285740255078092⟩

/-- The address of the public key `generator` in compressed serialization. -/
def addrCompressed : List Byte := asciiBytes "1BgGZ9tcN4rm9KBzDn7KprQz87SZ26SAMH"

/-- The slice returned by the decoder on `s` (the empty slice when it fails). -/
def decodedOf (s : List Byte) : Slice :=
  match DecodeString s with
  | Res.ok sl => sl
  | _ => ⟨[], 0, Nat.le_refl 0⟩

/-! ## Base58 numerals and the standard decoding

The reference notions against which `addrToStr` is compared: the base-58
numeral of a number in the Bitcoin alphabet, and the standard decoding of a
Base58 string (every leading `1` is one zero byte; the other characters are
read as a base-58 integer, written as its minimal big-endian bytes). -/

/-- The character `1`, first letter of the Bitcoin alphabet. -/
def oneChar : Byte := 49

/-- The base-58 numeral of `n` in the Bitcoin alphabet, most significant digit
first (the empty string for 0). -/
def base58Numeral (n : Nat) : List Byte :=
  (Nat.digits 58 n).reverse.map (fun d => base58Alphabet.getD d 0)

/-- The integer read from a string of base-58 characters. -/
def base58Value (s : List Byte) : Nat :=
  s.foldl (fun acc c => acc * 58 + base58Alphabet.indexOf c) 0

/-- Standard Base58 decoding: one zero byte per leading `1`, then the minimal
big-endian bytes of the integer read from the remaining characters. -/
def stdBase58Decode (s : List Byte) : List Byte :=
  List.replicate (s.takeWhile (fun c => decide (c = oneChar))).length 0
    ++ natBytes (base58Value (s.dropWhile (fun c => decide (c = oneChar))))


/-! ## The curve group

The curve `y² = x³ + 7` over the integers modulo `theCurveP`, with the group
of its points as defined in Mathlib; `toCurve` sends a point of the model to
the point of the curve that it represents. -/

/-- The Weierstrass curve `y² = x³ + 7` over the field of `theCurveP` elements. -/
def secp : WeierstrassCurve (ZMod theCurveP) := ⟨0, 0, 0, 0, 7⟩

/-- The point of the curve represented by a point of the model: the zero of the
group when the flag `Infinity` is set or the coordinates are not on the curve. -/
def toCurve (a : Point) : secp.toAffine.Point :=
  haveI : Decidable (secp.toAffine.Equation (a.x : ZMod theCurveP) (a.y : ZMod theCurveP)) :=
    decidable_of_iff _ (secp.toAffine.equation_iff _ _).symm
  haveI : Decidable (secp.toAffine.Nonsingular (a.x : ZMod theCurveP) (a.y : ZMod theCurveP)) :=
    decidable_of_iff _ (secp.toAffine.nonsingular_iff _ _).symm
  if h : a.infinity = false ∧
      secp.toAffine.Nonsingular (a.x : ZMod theCurveP) (a.y : ZMod theCurveP) then
    WeierstrassCurve.Affine.Point.some h.2
  else 0

/-- A point of the model that represents a point of the curve: the flag
`Infinity` is set or the coordinates satisfy the equation. -/
def pointGood (a : Point) : Bool := a.infinity || pointIsValid a

/-- A point of the curve coded by its x-coordinate and the parity of its
y-coordinate (`none` for the zero of the group). -/
def curveCode : secp.toAffine.Point → Option (ZMod theCurveP × Bool)
  | WeierstrassCurve.Affine.Point.zero => none
  | @WeierstrassCurve.Affine.Point.some _ _ _ x y _ => some (x, decide (y.val % 2 = 1))

/-! ## Scalar multiplication checked byte by byte

A multiple `k * a` with a 256-bit `k` is checked in 32 steps, one for each byte
of `k`; every step is given with its result. -/

/-- One step of a scalar multiplication by bytes: `256 * prev + c * a`. -/
def chainStep (a prev : Point) (c : Nat) : Point :=
  pointAdd (pointMul 512 256 prev) (pointMul 512 c a)

/-- The steps of a scalar multiplication by bytes, most significant byte
first, each with its result: every listed result is the step applied to the
previous one. -/
def chainOk (a : Point) : Point → List (Nat × Point) → Bool
  | _, [] => true
  | prev, (c, next) :: rest => decide (chainStep a prev c = next) && chainOk a next rest

/-- The scalar of a chain that starts from the scalar `v`. -/
def chainValue : Nat → List (Nat × Point) → Nat
  | v, [] => v
  | v, (c, _) :: rest => chainValue (v * 256 + c) rest

/-- The last point of a chain that starts from `prev`. -/
def chainLast : Point → List (Nat × Point) → Point
  | prev, [] => prev
  | _, (_, next) :: rest => chainLast next rest

/-- The multiplication of `generator` by `secpOrder`, byte by byte. -/
def orderChain : List (Nat × Point) :=
  [(255, ⟨12312385769684547396095365029355369071957339694349689622296638024179682296192,
     29045073188889159330506972844502087256824914692696728592611344825524969277689, false⟩),
   (255, ⟨99577865136541581272716647070755930256937866979919505697200229537979796287440,
     114265960071829761056315993662300488440859353008900857147698204927759003357952, false⟩),
   (255, ⟨74243244981999165375829477376323166010852672515139975696463755270880389937637,
     110259244318399368395134502763292603946586577058366215301351007252051788455649, false⟩),
   (255, ⟨84353664740444228439011026249523093615980163880775352006601710044671436206174,
     70086162059883113165357350924185928534033735369058967403519437240021815150764, false⟩),
   (255, ⟨63519181026141007708570613843793256029666128081784122045328541660410391135764,
     18841109871223992361754566695531629734555656575900577624493448027097481966396, false⟩),
   (255, ⟨47119192025632717632907581858528586457442080615549196722885994194867158565269,
     29898981333524044590423333584147941655821162762817868116860386379872252316369, false⟩),
   (255, ⟨7352646653125235091539385753841948207584543302919810141880239610384640384548,
     57320003767610686451455525892128129875618335167199863304711300174957406945688, false⟩),
   (255, ⟨22103564225080446607870885038642619297116411945151334988292469497259080155623,
     87221748030493249802157529909219195243606877670052731797952720158686957464281, false⟩),
   (255, ⟨44324295561254480448644385315555472422567172545121385136730640228434188212349,
     64884880477979079406092136828758632240294980691231793283265141811645097833185, false⟩),
   (255, ⟨72377952735338845254336429394882820024390462803578547242704692126200452442878,
     107718924346953345005121608508382869193128446322347507670229170755489356619013, false⟩),
   (255, ⟨18816364958072231856799819589858268710233117078719091626661525339504360003754,
     36867892477737698968889535658786426153182090557884436555791874656876469945088, false⟩),
   (255, ⟨5183438368247823987934399863722173059875496618660569865721429870666379617877,
     115067447288329648966706540646687111117073724853801414676526903346642653874806, false⟩),
   (255, ⟨78139633050678373183176658260309023204745874520155137150233710071868087822133,
     81044727238272521919177149746173519986620162382608422177279996749100315712943, false⟩),
   (255, ⟨17094445843246388782807047934495131951550157610276045715606318194015767473870,
     86381763383078582546737772157888348651468922085198088917854629613501820706960, false⟩),
   (255, ⟨99783062481929763298895154644208221421349043522236968117358273003590171967359,
     76077462664931240148802448179946552737717098049242819873660170300131041875017, false⟩),
   (254, ⟨68692142850392660802015396329039649451204381635119853432798177972246951304803,
     102365750941148103039035143763801997307773149029056103307434350881605350249461, false⟩),
   (186, ⟨23386655904038579724702493496484408272177640471541533430102479464506259404228,
     53663039570426527382473188235310655796464825472465894894573141556644110109924, false⟩),
   (174, ⟨28586767670040456310616221907251914343795286723356100715307541993043500323658,
     809373935437983616643794809700215623393373564677226761370754602900314325594, false⟩),
   (220, ⟨81165311114185953440354900777128142251839145553228093947741701454096896522712,
     79024001629993924486880222546222881057872171693910219242620912792028550696045, false⟩),
   (230, ⟨47247763451531799463065668430463609483975236849127794879763225805652470995583,
     2686146893585238506563017278856286586815519206823040860534813853656267894574, false⟩),
   (175, ⟨26350209081013120674735201011644298446887875744908933420591969660546902140305,
     46381886268604108628367729865296031646043786933678222182103524894861734393770, false⟩),
   (72, ⟨86936594602655074841329372854774354479873320102130302695213907660541031074033,
     59620323792767926642593146223605433394866633981945797121167552459715955977527, false⟩),
   (160, ⟨105553970460735689568918064092046062983297476868818920363407496462928146850704,
     42491866855427155221082474702970931090686764446547928296575064701965298828657, false⟩),
   (59, ⟨18462507725042716807979103445085429593496376249583542325522822244689471872519,
     37465934278057643432886868738220694055075490840727191692633083132563294258897, false⟩),
   (191, ⟨48788246365607200252560225491463893224879874805987281897641295922840889553297,
     64845759529736342328409323203478625253896728581735458077438085614840562143723, false⟩),
   (210, ⟨111981189532162353124821108747812109249789867368555539885752276725523994523838,
     104942328410533545697194267087618539634370377516224339825365724418906779069353, false⟩),
   (94, ⟨68767323252525989285442623759883128600043375380431368050047815095147376753424,
     13618304609848439202123143871544034744741388227688727342095650882191752745504, false⟩),
   (140, ⟨52950113734379978834285708195116877708433501691498224564508740991752088246881,
     107755904324268202193378651250843500936777087902814227553908609307377266828915, false⟩),
   (208, ⟨7893201664640008920806582252367587035964015976935389231079284945791945067475,
     4095719920293782198332212114043502749486248048593439897750911835779110736224, false⟩),
   (54, ⟨59391522668249385334376009645687768472252124611035097846394708269882073284523,
     106808109526191560568067197676741812315022724890485712949545067320012236917940, false⟩),
   (65, ⟨52942308695625731948425767743651775434415211775777857896939345663136915289715,
     11303820511970585737970021402097521800506845197213002405890782779840324778246, false⟩),
   (65, ⟨0, 0, true⟩)]


/-! ## A signature for the recovery -/

/-- The signature of the hash `secpOrder - generator.x` made with the private key 2
(public key `twoG`) and the nonce 1: both `R` and `S` are the x-coordinate of
`generator`. -/
def sigOfGenerator : Signature := ⟨generator.x, generator.x⟩

/-- The double of `generator`. -/
def twoG : Point :=
  ⟨0xC6047F9441ED7D6D3045406E95C07CD85C778E4B8CEF3CA7ABAC09B95C709EE5,
   0x1AE168FEA63DC339A3C58419466CEAEEF7F632653266D0E1236431A950CFE52A, false⟩


/-! ## Lemmas on the library models -/

theorem sha256_length (msg : List Byte) : (sha256 msg).length = 32 := by
  simp [sha256, be32]

theorem ripemd160_length (msg : List Byte) : (ripemd160 msg).length = 20 := by
  simp [ripemd160, le32]

theorem sha256d_length (body : List Byte) : (sha256d body).length = 32 := by
  simp [sha256d, sha256_length]

/-! ## Message hashing -/

/-- The value of `messagehash` on a short header and a short message. -/
theorem messagehash_of_short (message header : List Byte)
    (hh : header.length < 253) (hm : message.length < 253) :
    messagehash message header =
      Res.ok (sha256d ([Fin.ofNat header.length] ++ header ++ [Fin.ofNat message.length]
        ++ message)) := by
  have h1 : ¬ header.length ≥ 0xfd := by omega
  have h2 : ¬ message.length ≥ 0xfd := by omega
  simp only [messagehash, h1, h2, if_false]

/-- C3: for a header and a message both shorter than 253 bytes, `messagehash`
returns no error; its result is the double SHA-256 of the payload made of one
length byte, the header, one length byte and the message, where each length
byte equals the true length; the payload has `2 + len(header) + len(message)`
bytes and the digest has 32 bytes. -/
theorem messagehash_payload (message header : List Byte)
    (hh : header.length < 253) (hm : message.length < 253) :
    ∃ hb mb : Byte, hb.val = header.length ∧ mb.val = message.length ∧
      messagehash message header = Res.ok (sha256 (sha256 ([hb] ++ header ++ [mb] ++ message))) ∧
      ([hb] ++ header ++ [mb] ++ message).length = 2 + header.length + message.length ∧
      (sha256 (sha256 ([hb] ++ header ++ [mb] ++ message))).length = 32 := by
  refine ⟨Fin.ofNat header.length, Fin.ofNat message.length, ?_, ?_, ?_, ?_, ?_⟩
  · show header.length % 256 = header.length
    omega
  · show message.length % 256 = message.length
    omega
  · have h1 : ¬ header.length ≥ 0xfd := by omega
    have h2 : ¬ message.length ≥ 0xfd := by omega
    simp only [messagehash, h1, h2, if_false, sha256d]
  · simp only [List.length_append, List.length_cons, List.length_nil]
    omega
  · exact sha256_length _

theorem messagehash_payload_witness :
    ∃ hb mb : Byte, hb.val = hBSV.length ∧ mb.val = (asciiBytes "hello world").length ∧
      messagehash (asciiBytes "hello world") hBSV
        = Res.ok (sha256 (sha256 ([hb] ++ hBSV ++ [mb] ++ asciiBytes "hello world"))) ∧
      ([hb] ++ hBSV ++ [mb] ++ asciiBytes "hello world").length
        = 2 + hBSV.length + (asciiBytes "hello world").length ∧
      (sha256 (sha256 ([hb] ++ hBSV ++ [mb] ++ asciiBytes "hello world"))).length = 32 :=
  messagehash_payload (asciiBytes "hello world") hBSV (by decide) (by decide)

/-- C4: `messagehash` returns an error exactly when the header or the message
has 253 bytes or more, and it never panics. -/
theorem messagehash_err_iff (message header : List Byte) :
    ((messagehash message header).isErr = true ↔
      (header.length ≥ 253 ∨ message.length ≥ 253)) ∧
    (messagehash message header).isPanic = false := by
  unfold messagehash
  by_cases h1 : header.length ≥ 0xfd
  · simp only [h1, if_true, Res.isErr, Res.isPanic]
    simp
  · by_cases h2 : message.length ≥ 0xfd
    · simp only [h1, h2, if_true, if_false, Res.isErr, Res.isPanic]
      simp
    · simp only [h1, h2, if_false, Res.isErr, Res.isPanic]
      simp

/-! ## Sequencing -/

theorem Res.bind_eq_ok_iff {α β : Type} (r : Res α) (f : α → Res β) (b : β) :
    r.bind f = Res.ok b ↔ ∃ a, r = Res.ok a ∧ f a = Res.ok b := by
  cases r with
  | ok a =>
    constructor
    · intro h; exact ⟨a, rfl, h⟩
    · rintro ⟨a2, e, h⟩; cases e; exact h
  | err e =>
    constructor
    · intro h; cases h
    · rintro ⟨a2, e, -⟩; cases e
  | panic e =>
    constructor
    · intro h; cases h
    · rintro ⟨a2, e, -⟩; cases e

theorem Res.bind_ok {α β : Type} (a : α) (f : α → Res β) : (Res.ok a).bind f = f a := rfl

theorem Res.bind_err {α β : Type} (e : String) (f : α → Res β) :
    (Res.err e : Res α).bind f = Res.err e := rfl

theorem Res.bind_panic {α β : Type} (e : String) (f : α → Res β) :
    (Res.panic e : Res α).bind f = Res.panic e := rfl

/-! ## Signature parsing -/

theorem beNat_foldl_lt (bs : List Byte) (acc : Nat) :
    bs.foldl (fun acc b => acc * 256 + b.val) acc < (acc + 1) * 256 ^ bs.length := by
  induction bs generalizing acc with
  | nil => simp
  | cons b t ih =>
    simp only [List.foldl_cons, List.length_cons]
    have h1 := ih (acc * 256 + b.val)
    have hb : b.val < 256 := b.isLt
    have h2 : (acc * 256 + b.val + 1) * 256 ^ t.length ≤ (acc + 1) * 256 * 256 ^ t.length := by
      apply Nat.mul_le_mul_right
      omega
    calc List.foldl (fun acc b => acc * 256 + b.val) (acc * 256 + b.val) t
        < (acc * 256 + b.val + 1) * 256 ^ t.length := h1
      _ ≤ (acc + 1) * 256 * 256 ^ t.length := h2
      _ = (acc + 1) * 256 ^ (t.length + 1) := by ring

theorem beNat_lt (bs : List Byte) : beNat bs < 256 ^ bs.length := by
  have h := beNat_foldl_lt bs 0
  simpa [beNat] using h

theorem beNat_lt_of_length_le (bs : List Byte) (n : Nat) (h : bs.length ≤ n) :
    beNat bs < 256 ^ n :=
  lt_of_lt_of_le (beNat_lt bs) (Nat.pow_le_pow_right (by decide) h)

set_option maxRecDepth 100000 in
theorem compressed_flag_false (b0 : Byte) : decide (((b0 - 27) &&& 4) = 1) = false := by
  revert b0
  decide

set_option maxRecDepth 100000 in
theorem recid_formula (b0 : Byte) :
    ((((b0 - 27) &&& 3 : Byte).val : Nat) : Int)
      = ((Nat.land (Int.toNat (((b0.val : Int) - 27) % 256)) 3 : Nat) : Int) := by
  revert b0
  decide

set_option maxRecDepth 100000 in
theorem recid_range (b0 : Byte) : (((b0 - 27) &&& 3 : Byte).val : Nat) ≤ 3 := by
  revert b0
  decide

/-- The result of `parseSignature` once the decoder has returned `sigraw`. -/
theorem parseSignature_of_decode (signature : List Byte) (sigraw : Slice)
    (hd : DecodeString signature = Res.ok sigraw) :
    parseSignature signature =
      (sigraw.index 0).bind fun b0 =>
        (sigraw.slice 1 33).bind fun rbytes =>
        (sigraw.slice 33 65).bind fun sbytes =>
        Res.ok (⟨beNat rbytes, beNat sbytes⟩, ((((b0 - 27) &&& 3 : Byte).val : Nat) : Int)) := by
  unfold parseSignature
  rw [hd, Res.bind_ok]
  cases hi : sigraw.index 0 with
  | err e => rfl
  | panic e => rfl
  | ok b0 =>
    simp only [Res.bind_ok, compressed_flag_false b0]
    rfl

theorem take_getD_zero (l : List Byte) (n : Nat) (h : 0 < n) :
    (l.take n).getD 0 0 = l.getD 0 0 := by
  cases l with
  | nil => simp
  | cons a t =>
    cases n with
    | zero => omega
    | succ k => simp

theorem take_drop_take (l : List Byte) (n lo k : Nat) (h : lo + k ≤ n) :
    ((l.take n).drop lo).take k = (l.drop lo).take k := by
  rw [List.drop_take, List.take_take]
  congr 1
  omega

/-- The signature read from a decoded payload of at least 65 bytes. -/
theorem parseSignature_long (signature : List Byte) (sigraw : Slice)
    (hd : DecodeString signature = Res.ok sigraw) (hlen : 65 ≤ sigraw.len) :
    parseSignature signature =
      Res.ok (⟨beNat ((sigraw.payload.drop 1).take 32), beNat ((sigraw.payload.drop 33).take 32)⟩,
        (((((sigraw.payload.getD 0 0) - 27) &&& 3 : Byte).val : Nat) : Int)) := by
  have hcap : 65 ≤ sigraw.arr.length := le_trans hlen sigraw.len_le
  have h0 : sigraw.index 0 = Res.ok (sigraw.arr.getD 0 0) := by
    unfold Slice.index
    rw [if_pos (by omega)]
  have h1 : sigraw.slice 1 33 = Res.ok ((sigraw.arr.drop 1).take 32) := by
    unfold Slice.slice Slice.cap
    rw [if_pos (by omega)]
  have h2 : sigraw.slice 33 65 = Res.ok ((sigraw.arr.drop 33).take 32) := by
    unfold Slice.slice Slice.cap
    rw [if_pos (by omega)]
  rw [parseSignature_of_decode signature sigraw hd, h0, Res.bind_ok, h1, Res.bind_ok, h2,
    Res.bind_ok]
  unfold Slice.payload
  rw [take_getD_zero _ _ (by omega), take_drop_take _ _ _ _ (by omega),
    take_drop_take _ _ _ _ (by omega)]

/-- C7: for a base64 string that decodes to a payload `b` of at least 65 bytes
and on which `parseSignature` returns no error, the recovery id is
`((b[0] - 27) mod 256) & 3`, hence one of 0, 1, 2, 3; `R` is the big-endian
integer of `b[1..33)` and `S` the big-endian integer of `b[33..65)`, hence
both are below `2^256`. -/
theorem parseSignature_fields (signature : List Byte) (sigraw : Slice) (sig : Signature)
    (recid : Int) (hd : DecodeString signature = Res.ok sigraw) (hlen : 65 ≤ sigraw.len)
    (hp : parseSignature signature = Res.ok (sig, recid)) :
    recid = ((Nat.land (Int.toNat ((((sigraw.payload.getD 0 0).val : Int) - 27) % 256)) 3 : Nat) : Int) ∧
    (0 ≤ recid ∧ recid ≤ 3) ∧
    sig.R = beNat ((sigraw.payload.drop 1).take 32) ∧
    sig.S = beNat ((sigraw.payload.drop 33).take 32) ∧
    sig.R < 2 ^ 256 ∧ sig.S < 2 ^ 256 := by
  rw [parseSignature_long signature sigraw hd hlen] at hp
  injection hp with hp
  injection hp with hsig hrec
  subst hsig
  subst hrec
  refine ⟨recid_formula _, ⟨Int.natCast_nonneg _, ?_⟩, rfl, rfl, ?_, ?_⟩
  · have := recid_range (sigraw.payload.getD 0 0)
    exact_mod_cast this
  · have h := beNat_lt_of_length_le ((sigraw.payload.drop 1).take 32) 32 (List.length_take_le _ _)
    have e : (256 : Nat) ^ 32 = 2 ^ 256 := by norm_num
    rw [e] at h
    exact h
  · have h := beNat_lt_of_length_le ((sigraw.payload.drop 33).take 32) 32 (List.length_take_le _ _)
    have e : (256 : Nat) ^ 32 = 2 ^ 256 := by norm_num
    rw [e] at h
    exact h

set_option maxRecDepth 100000 in
theorem parseSignature_fields_witness :
    DecodeString sigUncompressed = Res.ok (decodedOf sigUncompressed) ∧
    65 ≤ (decodedOf sigUncompressed).len ∧
    parseSignature sigUncompressed = Res.ok (sampleSig, 1) ∧
    (1 : Int) = ((Nat.land (Int.toNat
      (((((decodedOf sigUncompressed).payload.getD 0 0).val : Int) - 27) % 256)) 3 : Nat) : Int) ∧
    ((0 : Int) ≤ 1 ∧ (1 : Int) ≤ 3) ∧
    sampleSig.R = beNat (((decodedOf sigUncompressed).payload.drop 1).take 32) ∧
    sampleSig.S = beNat (((decodedOf sigUncompressed).payload.drop 33).take 32) ∧
    sampleSig.R < 2 ^ 256 ∧ sampleSig.S < 2 ^ 256 :=
  ⟨rfl, by decide, by decide,
    parseSignature_fields sigUncompressed (decodedOf sigUncompressed) sampleSig 1 rfl
      (by decide) (by decide)⟩

theorem parseSignature_nil : parseSignature [] = Res.panic "index out of range" := rfl

set_option maxRecDepth 100000 in
/-- C5: the claim is that a decoded payload shorter than 65 bytes makes
`parseSignature` return an error. The code has no length check. On the empty
string the payload is empty and `parseSignature` panics at `sigraw[0]`; on
the base64 string `sigShort`, whose payload has 64 bytes in a buffer of
capacity 66, it returns a signature whose `S` is read past the payload. -/
theorem parseSignature_short_payload :
    (DecodeString [] = Res.ok (decodedOf []) ∧ (decodedOf []).len = 0 ∧
      parseSignature [] = Res.panic "index out of range") ∧
    (DecodeString sigShort = Res.ok (decodedOf sigShort) ∧ (decodedOf sigShort).len = 64 ∧
      (decodedOf sigShort).cap = 66 ∧
      parseSignature sigShort = Res.ok (⟨sampleSig.R, sampleSig.S - 204⟩, 1)) :=
  ⟨⟨rfl, rfl, rfl⟩, rfl, by decide, by decide, by decide⟩

set_option maxRecDepth 100000 in
/-- C6: the claim is that a signature whose header has the compressed bit set,
`((byte0 - 27) mod 256) & 4 != 0`, is rejected by `parseSignature` before any
curve arithmetic. The test in the code is `(r0 & 4) == 1`, which never holds:
the sample signature with header byte 32 is parsed without error, `recover`
is called and returns true. -/
theorem parseSignature_accepts_compressed :
    DecodeString sigCompressed = Res.ok (decodedOf sigCompressed) ∧
    65 ≤ (decodedOf sigCompressed).len ∧
    Nat.land (Int.toNat (((((decodedOf sigCompressed).payload.getD 0 0).val : Int) - 27) % 256)) 4
      ≠ 0 ∧
    parseSignature sigCompressed = Res.ok (sampleSig, 1) ∧
    ∃ (msghash2 : List Byte) (Q : Point),
      messagehash helloWorld hBSV = Res.ok msghash2 ∧
      recover gocoin sampleSig gocoin.zeroXY (beNat msghash2) 1 = Res.ok (true, Q) :=
  ⟨rfl, by decide, by decide, by decide, _, _, rfl, rfl⟩

/-! ## The verifier -/

/-- When `sigmestoaddr` succeeds: every stage succeeded and the result is the
list of the two derived addresses. -/
theorem sigmestoaddr_ok_iff (C : CurveOps) (signature message : List Byte)
    (addrs : List (List Byte)) :
    sigmestoaddr C signature message = Res.ok addrs ↔
      ∃ (msghash2 : List Byte) (sig : Signature) (recid : Int) (Q : C.XY) (s0 s1 : List Byte),
        messagehash message hBSV = Res.ok msghash2 ∧
        parseSignature signature = Res.ok (sig, recid) ∧
        recover C sig C.zeroXY (beNat msghash2) recid = Res.ok (true, Q) ∧
        addrToStr (pubtoaddr C Q true [0]) = Res.ok s0 ∧
        addrToStr (pubtoaddr C Q false [0]) = Res.ok s1 ∧
        addrs = [s0, s1] := by
  unfold sigmestoaddr
  constructor
  · intro h
    obtain ⟨msghash2, hm, h⟩ := (Res.bind_eq_ok_iff _ _ _).mp h
    obtain ⟨⟨sig, recid⟩, hp, h⟩ := (Res.bind_eq_ok_iff _ _ _).mp h
    obtain ⟨⟨ret2, Q⟩, hr, h⟩ := (Res.bind_eq_ok_iff _ _ _).mp h
    cases ret2 with
    | false => cases h
    | true =>
      obtain ⟨s0, h0, h⟩ := (Res.bind_eq_ok_iff _ _ _).mp h
      obtain ⟨s1, h1, h⟩ := (Res.bind_eq_ok_iff _ _ _).mp h
      cases h
      exact ⟨msghash2, sig, recid, Q, s0, s1, hm, hp, hr, h0, h1, rfl⟩
  · rintro ⟨msghash2, sig, recid, Q, s0, s1, hm, hp, hr, h0, h1, ha⟩
    rw [hm, Res.bind_ok, hp, Res.bind_ok]
    simp only []
    rw [hr, Res.bind_ok]
    simp only []
    rw [h0, Res.bind_ok, h1, Res.bind_ok, ha]
    rfl

/-- C1: `VerifyMessage` returns `true` exactly when `sigmestoaddr` succeeds
(hashing, parsing and recovery all succeed) and the address equals the
version-0 address of the recovered point in compressed serialization or its
version-0 address in uncompressed serialization. -/
theorem VerifyMessage_true_iff (C : CurveOps) (address signature data : List Byte) :
    VerifyMessage C address signature data = Res.ok true ↔
      ∃ (msghash2 : List Byte) (sig : Signature) (recid : Int) (Q : C.XY) (s0 s1 : List Byte),
        messagehash data hBSV = Res.ok msghash2 ∧
        parseSignature signature = Res.ok (sig, recid) ∧
        recover C sig C.zeroXY (beNat msghash2) recid = Res.ok (true, Q) ∧
        addrToStr (pubtoaddr C Q true [0]) = Res.ok s0 ∧
        addrToStr (pubtoaddr C Q false [0]) = Res.ok s1 ∧
        sigmestoaddr C signature data = Res.ok [s0, s1] ∧
        (address = s0 ∨ address = s1) := by
  constructor
  · intro h
    unfold VerifyMessage at h
    cases hs : sigmestoaddr C signature data with
    | err e => rw [hs] at h; cases h
    | panic e => rw [hs] at h; cases h
    | ok addrs =>
      obtain ⟨msghash2, sig, recid, Q, s0, s1, hm, hp, hr, h0, h1, ha⟩ :=
        (sigmestoaddr_ok_iff C signature data addrs).mp hs
      refine ⟨msghash2, sig, recid, Q, s0, s1, hm, hp, hr, h0, h1, ha ▸ rfl, ?_⟩
      rw [hs, ha] at h
      by_cases e0 : address = s0
      · exact Or.inl e0
      · by_cases e1 : address = s1
        · exact Or.inr e1
        · simp only [matchAny, e0, e1, if_false, Res.ok.injEq] at h
          cases h
  · rintro ⟨msghash2, sig, recid, Q, s0, s1, -, -, -, -, -, hs, hor⟩
    unfold VerifyMessage
    rw [hs]
    rcases hor with e | e
    · simp only [matchAny, e, if_true]
    · simp only [matchAny, e, if_true, ite_self]

/-- C2: the claim is that `VerifyMessage` never panics and returns false when
a stage fails. With an empty signature the decoder returns an empty payload
and `parseSignature` panics at `sigraw[0]`, so `VerifyMessage` panics instead
of returning false (for every address and every message shorter than 253
bytes). -/
theorem VerifyMessage_empty_signature_panics (C : CurveOps) (address data : List Byte)
    (hlen : data.length < 253) :
    VerifyMessage C address [] data = Res.panic "index out of range" := by
  unfold VerifyMessage sigmestoaddr
  rw [messagehash_of_short data hBSV (by decide) hlen, Res.bind_ok, parseSignature_nil,
    Res.bind_panic]

theorem VerifyMessage_empty_signature_panics_witness :
    helloWorld.length < 253 ∧
    VerifyMessage gocoin addrCompressed [] helloWorld = Res.panic "index out of range" :=
  ⟨by decide, VerifyMessage_empty_signature_panics gocoin addrCompressed helloWorld (by decide)⟩

/-! ## Public-key recovery -/

/-- What `recover` has computed when it returns true. -/
theorem recover_true_inv (C : CurveOps) (sig : Signature) (pubkey : C.XY) (m : Nat)
    (recid : Int) (Q : C.XY) (h : recover C sig pubkey m recid = Res.ok (true, Q)) :
    ∃ b32 : List Byte,
      getBin (if Int.land recid 2 ≠ 0 then sig.R + C.order else sig.R) 32 = Res.ok b32 ∧
      C.isValid (C.setXO (C.setB32 b32) (decide (Int.land recid 1 ≠ 0))) = true ∧
      Q = C.setXYZ (C.ecmult (C.setXY (C.setXO (C.setB32 b32) (decide (Int.land recid 1 ≠ 0))))
        (modInverse sig.R C.order * sig.S % C.order)
        (C.order - modInverse sig.R C.order * m % C.order)) := by
  have key : ∀ rx : Nat, recoverPoint C sig pubkey m recid rx = Res.ok (true, Q) →
      ∃ b32 : List Byte, getBin rx 32 = Res.ok b32 ∧
        C.isValid (C.setXO (C.setB32 b32) (decide (Int.land recid 1 ≠ 0))) = true ∧
        Q = C.setXYZ (C.ecmult (C.setXY (C.setXO (C.setB32 b32) (decide (Int.land recid 1 ≠ 0))))
          (modInverse sig.R C.order * sig.S % C.order)
          (C.order - modInverse sig.R C.order * m % C.order)) := by
    intro rx hrx
    unfold recoverPoint at hrx
    obtain ⟨b32, hb, hrx⟩ := (Res.bind_eq_ok_iff _ _ _).mp hrx
    refine ⟨b32, hb, ?_⟩
    cases hv : C.isValid (C.setXO (C.setB32 b32) (decide (Int.land recid 1 ≠ 0))) with
    | false =>
      simp only [hv, Bool.not_false, if_true] at hrx
      injection hrx with hrx
      injection hrx with hrx _
      cases hrx
    | true =>
      simp only [hv, Bool.not_true, Bool.false_eq_true, if_false] at hrx
      injection hrx with hrx
      injection hrx with _ hQ
      exact ⟨rfl, hQ.symm⟩
  unfold recover at h
  by_cases h2 : Int.land recid 2 ≠ 0
  · rw [if_pos h2] at h
    rw [if_pos h2]
    by_cases hge : sig.R + C.order ≥ theCurveP
    · simp only [hge, if_true] at h
      injection h with h
      injection h with h _
      cases h
    · simp only [hge, if_false] at h
      exact key _ h
  · rw [if_neg h2] at h
    rw [if_neg h2]
    exact key _ h

/-- C8, as the code has it: when `recid & 2 != 0` and `R + order >= primeP`,
`recover` returns false and leaves the public key as it was. -/
theorem recover_out_of_range (C : CurveOps) (sig : Signature) (pubkey : C.XY) (m : Nat)
    (recid : Int) (h2 : Int.land recid 2 ≠ 0) (hge : sig.R + C.order ≥ theCurveP) :
    recover C sig pubkey m recid = Res.ok (false, pubkey) := by
  unfold recover
  rw [if_pos h2]
  simp only [hge, if_true]

theorem recover_out_of_range_witness :
    Int.land 2 2 ≠ 0 ∧ sampleSig.R + gocoin.order ≥ theCurveP ∧
    recover gocoin sampleSig gocoin.zeroXY 1 2 = Res.ok (false, gocoin.zeroXY) :=
  ⟨by decide, by decide, recover_out_of_range gocoin sampleSig gocoin.zeroXY 1 2 (by decide)
    (by decide)⟩

set_option maxRecDepth 100000 in
/-- C8, counterexample: with `recid = 0` and `R = primeP + 1` (so `recid & 2 = 0`
and `primeP <= R < 2^256`) no range check is made and `recover` returns true. -/
theorem recover_accepts_R_above_prime :
    Int.land 0 2 = 0 ∧ theCurveP ≤ theCurveP + 1 ∧ theCurveP + 1 < 2 ^ 256 ∧
    (recover gocoin ⟨theCurveP + 1, 1⟩ gocoin.zeroXY 1 0).map Prod.fst = Res.ok true :=
  ⟨by decide, by decide, by decide, rfl⟩


/-- When `g` and `n > 1` are coprime, `modInverse g n` is an inverse of `g` modulo `n`. -/
theorem modInverse_mul_mod (g n : Nat) (hg : Nat.gcd g n = 1) (hn : 1 < n) :
    modInverse g n * g % n = 1 := by
  unfold modInverse
  rw [if_pos hg]
  have hbez := Nat.gcd_eq_gcd_ab g n
  rw [hg] at hbez
  have hn0 : (n : Int) ≠ 0 := by omega
  have hx : (0 : Int) ≤ Nat.gcdA g n % (n : Int) := Int.emod_nonneg _ hn0
  have key : ((Int.toNat (Nat.gcdA g n % (n : Int)) * g % n : Nat) : Int) = 1 := by
    push_cast
    rw [Int.toNat_of_nonneg hx, Int.mul_emod, Int.emod_emod, ← Int.mul_emod]
    have e : Nat.gcdA g n * (g : Int) = 1 + (n : Int) * (-(Nat.gcdB g n)) := by
      push_cast at hbez
      linarith
    rw [e, Int.add_mul_emod_self_left]
    exact Int.emod_eq_of_lt (by omega) (by omega)
  exact_mod_cast key

/-- Big-endian value of the little-endian digits, read back. -/
theorem leDigits_value (fuel n : Nat) (h : n ≤ fuel) :
    (leDigits fuel n).foldr (fun b acc => acc * 256 + b.val) 0 = n := by
  induction fuel generalizing n with
  | zero =>
    have : n = 0 := by omega
    subst this
    rfl
  | succ k ih =>
    unfold leDigits
    by_cases h0 : n = 0
    · rw [if_pos h0]
      subst h0
      rfl
    · rw [if_neg h0]
      simp only [List.foldr_cons]
      rw [ih (n / 256) (by omega)]
      show n / 256 * 256 + n % 256 % 256 = n
      omega

theorem beNat_natBytes (n : Nat) : beNat (natBytes n) = n := by
  unfold beNat natBytes
  rw [List.foldl_reverse]
  exact leDigits_value n n (Nat.le_refl n)

theorem beNat_zeros_append (k : Nat) (bs : List Byte) :
    beNat (List.replicate k 0 ++ bs) = beNat bs := by
  unfold beNat
  rw [List.foldl_append]
  congr 1
  induction k with
  | zero => rfl
  | succ j ih =>
    rw [List.replicate_succ, List.foldl_cons]
    exact ih

/-- The bytes returned by `getBin` are `le` bytes whose big-endian value is `num`. -/
theorem getBin_ok (num le : Nat) (b : List Byte) (h : getBin num le = Res.ok b) :
    b.length = le ∧ beNat b = num := by
  unfold getBin at h
  by_cases h1 : (natBytes num).length > le
  · rw [if_pos h1] at h
    cases h
  · by_cases h2 : (natBytes num).length = le
    · rw [if_neg h1, if_pos h2] at h
      injection h with h
      subst h
      exact ⟨h2, beNat_natBytes num⟩
    · rw [if_neg h1, if_neg h2] at h
      injection h with h
      subst h
      refine ⟨?_, ?_⟩
      · rw [List.length_append, List.length_replicate]
        omega
      · rw [beNat_zeros_append, beNat_natBytes]

/-! ## Address derivation -/

/-- C10: for every point, compressed flag and one-byte version `v`, `pubtoaddr`
returns 25 bytes: byte 0 is `v`, bytes 1..21 are RIPEMD160(SHA256(ser)) where
`ser` is the serialization of the point in a buffer of 33 bytes when
`compressed` is true and of 65 bytes when it is false, and bytes 21..25 are
the first four bytes of SHA256(SHA256(bytes 0..21)). -/
theorem pubtoaddr_layout (C : CurveOps) (P : C.XY) (compressed : Bool) (v : Byte) :
    (C.getPublicKey P (List.replicate (if compressed then 33 else 65) 0)).length
      = (if compressed then 33 else 65) ∧
    (pubtoaddr C P compressed [v]).length = 25 ∧
    (pubtoaddr C P compressed [v]).take 1 = [v] ∧
    ((pubtoaddr C P compressed [v]).drop 1).take 20
      = ripemd160 (sha256 (C.getPublicKey P (List.replicate (if compressed then 33 else 65) 0))) ∧
    (pubtoaddr C P compressed [v]).drop 21
      = (sha256 (sha256 ((pubtoaddr C P compressed [v]).take 21))).take 4 := by
  have hser : (C.getPublicKey P (List.replicate (if compressed then 33 else 65) 0)).length
      = (if compressed then 33 else 65) := by
    rw [C.getPublicKey_length, List.length_replicate]
  generalize hs : C.getPublicKey P (List.replicate (if compressed then 33 else 65) 0) = ser
    at hser ⊢
  have hp : pubtoaddr C P compressed [v]
      = ([v] ++ ripemd160 (sha256 ser)) ++ (sha256 (sha256 ([v] ++ ripemd160 (sha256 ser)))).take 4 := by
    unfold pubtoaddr sha256d
    simp only [hs]
  generalize hh : ripemd160 (sha256 ser) = h160 at hp
  have h20 : h160.length = 20 := by rw [← hh]; exact ripemd160_length _
  have h21 : ([v] ++ h160).length = 21 := by
    rw [List.length_append, h20]; rfl
  generalize hc : sha256 (sha256 ([v] ++ h160)) = chk at hp
  have h32 : chk.length = 32 := by rw [← hc]; exact sha256_length _
  have htake : ([v] ++ h160 ++ chk.take 4).take 21 = [v] ++ h160 := by
    rw [List.take_append_of_le_length (by omega), ← h21, List.take_length]
  refine ⟨hser, ?_, ?_, ?_, ?_⟩
  · rw [hp, List.length_append, h21, List.length_take, h32]
    rfl
  · rw [hp]
    rfl
  · rw [hp]
    show (h160 ++ chk.take 4).take 20 = h160
    rw [List.take_append_of_le_length (by omega), ← h20, List.take_length]
  · rw [hp, htake, hc, ← h21, List.drop_left]

/-! ## Frame of `recover` and range of `getBin` -/

/-- The two outcomes of the tail of `recover`: the key is written exactly when
true is returned. -/
theorem recoverPoint_false (C : CurveOps) (sig : Signature) (pubkey : C.XY) (m : Nat)
    (recid : Int) (rx : Nat) (pk : C.XY)
    (h : recoverPoint C sig pubkey m recid rx = Res.ok (false, pk)) : pk = pubkey := by
  unfold recoverPoint at h
  obtain ⟨b32, -, h⟩ := (Res.bind_eq_ok_iff _ _ _).mp h
  cases hv : C.isValid (C.setXO (C.setB32 b32) (decide (Int.land recid 1 ≠ 0))) with
  | false =>
    simp only [hv, Bool.not_false, if_true] at h
    injection h with h
    injection h with _ hpk
    exact hpk.symm
  | true =>
    simp only [hv, Bool.not_true, Bool.false_eq_true, if_false] at h
    injection h with h
    injection h with hb _
    cases hb

/-- C14: whenever `recover` returns false, the public key of the caller is left
as it was before the call. -/
theorem recover_false_frame (C : CurveOps) (sig : Signature) (pubkey : C.XY) (m : Nat)
    (recid : Int) (pk : C.XY) (h : recover C sig pubkey m recid = Res.ok (false, pk)) :
    pk = pubkey := by
  unfold recover at h
  by_cases h2 : Int.land recid 2 ≠ 0
  · rw [if_pos h2] at h
    by_cases hge : sig.R + C.order ≥ theCurveP
    · simp only [hge, if_true] at h
      injection h with h
      injection h with _ hpk
      exact hpk.symm
    · simp only [hge, if_false] at h
      exact recoverPoint_false C sig pubkey m recid _ pk h
  · rw [if_neg h2] at h
    exact recoverPoint_false C sig pubkey m recid _ pk h

set_option maxRecDepth 100000 in
theorem recover_false_frame_witness :
    recover gocoin sampleSig generator 1 2 = Res.ok (false, generator) ∧ generator = generator :=
  ⟨by rfl, recover_false_frame gocoin sampleSig generator 1 2 generator (by rfl)⟩

theorem leDigits_length_le (fuel n k : Nat) (h : n < 256 ^ k) :
    (leDigits fuel n).length ≤ k := by
  induction fuel generalizing n k with
  | zero => exact Nat.zero_le _
  | succ f ih =>
    unfold leDigits
    by_cases h0 : n = 0
    · rw [if_pos h0]
      exact Nat.zero_le _
    · rw [if_neg h0]
      cases k with
      | zero =>
        rw [pow_zero] at h
        omega
      | succ j =>
        rw [List.length_cons]
        have hq : n / 256 < 256 ^ j := by
          rw [pow_succ] at h
          exact Nat.div_lt_of_lt_mul (by rw [Nat.mul_comm]; exact h)
        have := ih (n / 256) j hq
        omega

theorem natBytes_length_le (n k : Nat) (h : n < 256 ^ k) : (natBytes n).length ≤ k := by
  unfold natBytes
  rw [List.length_reverse]
  exact leDigits_length_le n n k h

/-- The result of `getBin` on a number that fits in `le` bytes. -/
theorem getBin_of_lt (num le : Nat) (h : num < 256 ^ le) :
    getBin num le = Res.ok (List.replicate (le - (natBytes num).length) 0 ++ natBytes num) := by
  have hl := natBytes_length_le num le h
  unfold getBin
  rw [if_neg (by omega)]
  by_cases h2 : (natBytes num).length = le
  · rw [if_pos h2, h2, Nat.sub_self]
    rfl
  · rw [if_neg h2]

theorem theCurveP_lt : theCurveP < 2 ^ 256 := by decide

theorem recoverPoint_no_panic (C : CurveOps) (sig : Signature) (pubkey : C.XY) (m : Nat)
    (recid : Int) (rx : Nat) (h : rx < 2 ^ 256) :
    (recoverPoint C sig pubkey m recid rx).isPanic = false := by
  have e : (256 : Nat) ^ 32 = 2 ^ 256 := by norm_num
  unfold recoverPoint
  rw [getBin_of_lt rx 32 (by rw [e]; exact h), Res.bind_ok]
  cases hv : C.isValid (C.setXO (C.setB32
      (List.replicate (32 - (natBytes rx).length) 0 ++ natBytes rx))
      (decide (Int.land recid 1 ≠ 0))) with
  | false =>
    simp only [hv, Bool.not_false, if_true]
    rfl
  | true =>
    simp only [hv, Bool.not_true, Bool.false_eq_true, if_false]
    rfl

/-- C16: for every `R < 2^256` and every recovery id, `recover` does not panic;
when control reaches `getBin(&rx, 32)` (the range check has not returned
false), `rx` is below `2^256` and `getBin` returns exactly 32 bytes, the
big-endian bytes of `rx` preceded by zero bytes. -/
theorem recover_getBin_in_range (C : CurveOps) (sig : Signature) (pubkey : C.XY) (m : Nat)
    (recid : Int) (hR : sig.R < 2 ^ 256) :
    (recover C sig pubkey m recid).isPanic = false ∧
    (¬ (Int.land recid 2 ≠ 0 ∧ sig.R + C.order ≥ theCurveP) →
      (if Int.land recid 2 ≠ 0 then sig.R + C.order else sig.R) < 2 ^ 256 ∧
      ∃ b32 : List Byte,
        getBin (if Int.land recid 2 ≠ 0 then sig.R + C.order else sig.R) 32 = Res.ok b32 ∧
        b32.length = 32 ∧
        b32 = List.replicate
            (32 - (natBytes (if Int.land recid 2 ≠ 0 then sig.R + C.order else sig.R)).length) 0
          ++ natBytes (if Int.land recid 2 ≠ 0 then sig.R + C.order else sig.R) ∧
        beNat b32 = (if Int.land recid 2 ≠ 0 then sig.R + C.order else sig.R)) := by
  have e : (256 : Nat) ^ 32 = 2 ^ 256 := by norm_num
  have hP := theCurveP_lt
  constructor
  · unfold recover
    by_cases h2 : Int.land recid 2 ≠ 0
    · rw [if_pos h2]
      by_cases hge : sig.R + C.order ≥ theCurveP
      · simp only [hge, if_true]
        rfl
      · simp only [hge, if_false]
        exact recoverPoint_no_panic C sig pubkey m recid _ (by omega)
    · rw [if_neg h2]
      exact recoverPoint_no_panic C sig pubkey m recid _ hR
  · intro hreach
    have hrx : (if Int.land recid 2 ≠ 0 then sig.R + C.order else sig.R) < 2 ^ 256 := by
      by_cases h2 : Int.land recid 2 ≠ 0
      · rw [if_pos h2]
        have : ¬ sig.R + C.order ≥ theCurveP := fun hge => hreach ⟨h2, hge⟩
        omega
      · rw [if_neg h2]
        exact hR
    refine ⟨hrx, _, getBin_of_lt _ 32 (by rw [e]; exact hrx), ?_, rfl, ?_⟩
    · exact (getBin_ok _ _ _ (getBin_of_lt _ 32 (by rw [e]; exact hrx))).1
    · exact (getBin_ok _ _ _ (getBin_of_lt _ 32 (by rw [e]; exact hrx))).2

theorem recover_getBin_in_range_witness :
    sampleSig.R < 2 ^ 256 ∧
    (recover gocoin sampleSig gocoin.zeroXY 1 1).isPanic = false ∧
    (¬ (Int.land 1 2 ≠ 0 ∧ sampleSig.R + gocoin.order ≥ theCurveP) →
      (if Int.land 1 2 ≠ 0 then sampleSig.R + gocoin.order else sampleSig.R) < 2 ^ 256 ∧
      ∃ b32 : List Byte,
        getBin (if Int.land 1 2 ≠ 0 then sampleSig.R + gocoin.order else sampleSig.R) 32
          = Res.ok b32 ∧
        b32.length = 32 ∧
        b32 = List.replicate
            (32 - (natBytes (if Int.land 1 2 ≠ 0 then sampleSig.R + gocoin.order
              else sampleSig.R)).length) 0
          ++ natBytes (if Int.land 1 2 ≠ 0 then sampleSig.R + gocoin.order else sampleSig.R) ∧
        beNat b32 = (if Int.land 1 2 ≠ 0 then sampleSig.R + gocoin.order else sampleSig.R)) :=
  ⟨by decide, recover_getBin_in_range gocoin sampleSig gocoin.zeroXY 1 1 (by decide)⟩

/-! ## Independence of `parseSignature` from the unused header bits -/

set_option maxRecDepth 100000 in
theorem recid_mod_four (b0 : Byte) : (((b0 - 27) &&& 3 : Byte).val : Nat) = (b0.val + 1) % 4 := by
  revert b0
  decide

/-- A decoded payload is never rejected with an error by `parseSignature`. -/
theorem parseSignature_not_err (signature : List Byte) (sigraw : Slice)
    (hd : DecodeString signature = Res.ok sigraw) : (parseSignature signature).isErr = false := by
  rw [parseSignature_of_decode signature sigraw hd]
  unfold Slice.index
  by_cases h0 : 0 < sigraw.len
  · rw [if_pos h0, Res.bind_ok]
    unfold Slice.slice
    by_cases h1 : 33 ≤ sigraw.cap
    · rw [if_pos h1, Res.bind_ok]
      by_cases h2 : 65 ≤ sigraw.cap
      · rw [if_pos h2, Res.bind_ok]; rfl
      · rw [if_neg h2]; rfl
    · rw [if_neg h1]; rfl
  · rw [if_neg h0]; rfl

/-- C15: the compressed flag `(r0 & 4) == 1` with `r0 = byte0 - 27` is false
for every header byte, so the error "compressed type is not supported" is not
returned: on a base64 string that decodes to at least 65 bytes
`parseSignature` succeeds whatever byte 0 is. -/
theorem parseSignature_flag_never_set (signature : List Byte) (sigraw : Slice)
    (hd : DecodeString signature = Res.ok sigraw) (hlen : 65 ≤ sigraw.len) :
    (∀ b0 : Byte, decide (((b0 - 27) &&& 4) = 1) = false) ∧
    (parseSignature signature).isOk = true ∧
    (parseSignature signature).isErr = false := by
  refine ⟨compressed_flag_false, ?_, parseSignature_not_err signature sigraw hd⟩
  rw [parseSignature_long signature sigraw hd hlen]
  rfl

set_option maxRecDepth 100000 in
theorem parseSignature_flag_never_set_witness :
    DecodeString sigCompressed = Res.ok (decodedOf sigCompressed) ∧
    65 ≤ (decodedOf sigCompressed).len ∧
    (∀ b0 : Byte, decide (((b0 - 27) &&& 4) = 1) = false) ∧
    (parseSignature sigCompressed).isOk = true ∧
    (parseSignature sigCompressed).isErr = false :=
  ⟨rfl, by decide,
    parseSignature_flag_never_set sigCompressed (decodedOf sigCompressed) rfl (by decide)⟩

theorem take_of_take64 (l1 l2 : List Byte) (lo k : Nat) (hk : lo + k ≤ 64)
    (h : (l1.drop 1).take 64 = (l2.drop 1).take 64) :
    (l1.drop (1 + lo)).take k = (l2.drop (1 + lo)).take k := by
  have e : ∀ l : List Byte, (l.drop (1 + lo)).take k = (((l.drop 1).take 64).drop lo).take k := by
    intro l
    rw [List.drop_take, List.take_take, List.drop_drop]
    congr 1
    omega
  rw [e l1, e l2, h]

/-- C17: for two base64 strings whose decoded payloads have at least 65 bytes,
agree on bytes 1..65 and have first bytes congruent modulo 4,
`parseSignature` returns the same result, and therefore `VerifyMessage`
returns the same result for every address and message. -/
theorem parseSignature_depends_on (s1 s2 : List Byte) (r1 r2 : Slice)
    (hd1 : DecodeString s1 = Res.ok r1) (hd2 : DecodeString s2 = Res.ok r2)
    (hl1 : 65 ≤ r1.len) (hl2 : 65 ≤ r2.len)
    (hbytes : (r1.payload.drop 1).take 64 = (r2.payload.drop 1).take 64)
    (hmod : (r1.payload.getD 0 0).val % 4 = (r2.payload.getD 0 0).val % 4) :
    parseSignature s1 = parseSignature s2 ∧
    ∀ (C : CurveOps) (address data : List Byte),
      VerifyMessage C address s1 data = VerifyMessage C address s2 data := by
  have hp : parseSignature s1 = parseSignature s2 := by
    rw [parseSignature_long s1 r1 hd1 hl1, parseSignature_long s2 r2 hd2 hl2]
    have hR := take_of_take64 r1.payload r2.payload 0 32 (by omega) hbytes
    have hS := take_of_take64 r1.payload r2.payload 32 32 (by omega) hbytes
    have hrec : (((r1.payload.getD 0 0 - 27) &&& 3 : Byte).val : Nat)
        = (((r2.payload.getD 0 0 - 27) &&& 3 : Byte).val : Nat) := by
      rw [recid_mod_four, recid_mod_four]
      omega
    rw [show (1 : Nat) = 1 + 0 from rfl, hR, show (33 : Nat) = 1 + 32 from rfl, hS, hrec]
  refine ⟨hp, ?_⟩
  intro C address data
  unfold VerifyMessage sigmestoaddr
  rw [hp]

set_option maxRecDepth 100000 in
theorem parseSignature_depends_on_witness :
    DecodeString sigUncompressed = Res.ok (decodedOf sigUncompressed) ∧
    DecodeString sigCompressed = Res.ok (decodedOf sigCompressed) ∧
    65 ≤ (decodedOf sigUncompressed).len ∧ 65 ≤ (decodedOf sigCompressed).len ∧
    ((decodedOf sigUncompressed).payload.drop 1).take 64
      = ((decodedOf sigCompressed).payload.drop 1).take 64 ∧
    ((decodedOf sigUncompressed).payload.getD 0 0).val % 4
      = ((decodedOf sigCompressed).payload.getD 0 0).val % 4 ∧
    parseSignature sigUncompressed = parseSignature sigCompressed ∧
    ∀ (C : CurveOps) (address data : List Byte),
      VerifyMessage C address sigUncompressed data = VerifyMessage C address sigCompressed data :=
  ⟨rfl, rfl, by decide, by decide, by decide, by decide,
    parseSignature_depends_on sigUncompressed sigCompressed (decodedOf sigUncompressed)
      (decodedOf sigCompressed) rfl rfl (by decide) (by decide) (by decide) (by decide)⟩

/-! ## Framing of the hashed payload -/

/-- C18: the length-prefixed framing hashed by `messagehash` is unambiguous:
for headers and messages shorter than 253 bytes, equal payloads
`[len(header)] ++ header ++ [len(message)] ++ message` come from equal headers
and equal messages; the payload is the pre-image that `messagehash` hashes. -/
theorem framing_injective (header1 message1 header2 message2 : List Byte)
    (hh1 : header1.length < 253) (hm1 : message1.length < 253)
    (hh2 : header2.length < 253) (hm2 : message2.length < 253)
    (heq : ([Fin.ofNat header1.length] ++ header1 ++ [Fin.ofNat message1.length] ++ message1
        : List Byte)
      = [Fin.ofNat header2.length] ++ header2 ++ [Fin.ofNat message2.length] ++ message2) :
    (header1 = header2 ∧ message1 = message2) ∧
    messagehash message1 header1
      = Res.ok (sha256d ([Fin.ofNat header1.length] ++ header1 ++ [Fin.ofNat message1.length]
          ++ message1)) ∧
    messagehash message2 header2
      = Res.ok (sha256d ([Fin.ofNat header2.length] ++ header2 ++ [Fin.ofNat message2.length]
          ++ message2)) := by
  refine ⟨?_, messagehash_of_short message1 header1 hh1 hm1,
    messagehash_of_short message2 header2 hh2 hm2⟩
  simp only [List.singleton_append, List.cons_append, List.append_assoc, List.nil_append,
    List.cons.injEq] at heq
  obtain ⟨hlen, hrest⟩ := heq
  have hl : header1.length = header2.length := by
    have := congrArg Fin.val hlen
    change header1.length % 256 = header2.length % 256 at this
    omega
  obtain ⟨e1, e2⟩ := List.append_inj hrest hl
  injection e2 with _ e3
  exact ⟨e1, e3⟩

theorem framing_injective_witness :
    hBSV.length < 253 ∧ helloWorld.length < 253 ∧ hBSV.length < 253 ∧ helloWorld.length < 253 ∧
    ([Fin.ofNat hBSV.length] ++ hBSV ++ [Fin.ofNat helloWorld.length] ++ helloWorld : List Byte)
      = [Fin.ofNat hBSV.length] ++ hBSV ++ [Fin.ofNat helloWorld.length] ++ helloWorld ∧
    (hBSV = hBSV ∧ helloWorld = helloWorld) ∧
    messagehash helloWorld hBSV
      = Res.ok (sha256d ([Fin.ofNat hBSV.length] ++ hBSV ++ [Fin.ofNat helloWorld.length]
          ++ helloWorld)) ∧
    messagehash helloWorld hBSV
      = Res.ok (sha256d ([Fin.ofNat hBSV.length] ++ hBSV ++ [Fin.ofNat helloWorld.length]
          ++ helloWorld)) :=
  ⟨by decide, by decide, by decide, by decide, rfl,
    framing_injective hBSV helloWorld hBSV helloWorld (by decide) (by decide) (by decide)
      (by decide) rfl⟩

/-! ## Digits -/

theorem digitsLE_eq_digits (b : Nat) (hb : 1 < b) (fuel n : Nat) (h : n ≤ fuel) :
    digitsLE b fuel n = Nat.digits b n := by
  induction fuel generalizing n with
  | zero =>
    have : n = 0 := by omega
    subst this
    simp [digitsLE]
  | succ f ih =>
    unfold digitsLE
    by_cases h0 : n = 0
    · rw [if_pos h0, h0, Nat.digits_zero]
    · rw [if_neg h0, Nat.digits_def' hb (Nat.pos_of_ne_zero h0)]
      have hlt : n / b < n := Nat.div_lt_self (Nat.pos_of_ne_zero h0) hb
      rw [ih (n / b) (by omega)]

theorem leDigits_map_val (fuel n : Nat) (h : n ≤ fuel) :
    (leDigits fuel n).map (fun b => b.val) = Nat.digits 256 n := by
  induction fuel generalizing n with
  | zero =>
    have : n = 0 := by omega
    subst this
    simp [leDigits]
  | succ f ih =>
    unfold leDigits
    by_cases h0 : n = 0
    · rw [if_pos h0, h0, Nat.digits_zero]
      rfl
    · rw [if_neg h0, Nat.digits_def' (by decide) (Nat.pos_of_ne_zero h0), List.map_cons]
      have hlt : n / 256 < n := Nat.div_lt_self (Nat.pos_of_ne_zero h0) (by decide)
      rw [ih (n / 256) (by omega)]
      congr 1
      show n % 256 % 256 = n % 256
      omega

/-- Reading digits most significant first is `Nat.ofDigits` of the reversed list. -/
theorem foldl_eq_ofDigits (b : Nat) (L : List Nat) :
    L.reverse.foldl (fun acc d => acc * b + d) 0 = Nat.ofDigits b L := by
  rw [List.foldl_reverse]
  induction L with
  | nil => rfl
  | cons d t ih =>
    rw [List.foldr_cons, ih, Nat.ofDigits_cons, Nat.mul_comm, Nat.add_comm]

theorem beNat_eq_ofDigits (l : List Byte) :
    beNat l = Nat.ofDigits 256 (l.map (fun b => b.val)).reverse := by
  rw [← foldl_eq_ofDigits, List.reverse_reverse]
  unfold beNat
  rw [List.foldl_map]

/-- The minimal big-endian bytes of the value of a byte string without leading
zero are that byte string. -/
theorem natBytes_beNat (c : Byte) (rest : List Byte) (hc : c ≠ 0) :
    natBytes (beNat (c :: rest)) = c :: rest := by
  have hdig : Nat.digits 256 (beNat (c :: rest))
      = ((c :: rest).map (fun b => b.val)).reverse := by
    rw [beNat_eq_ofDigits]
    apply Nat.digits_ofDigits 256 (by decide)
    · intro d hd
      rw [List.mem_reverse, List.mem_map] at hd
      obtain ⟨x, -, rfl⟩ := hd
      exact x.isLt
    · intro hne
      rw [List.getLast_reverse]
      simp only [List.map_cons, List.head_cons]
      intro h0
      exact hc (Fin.ext h0)
  have hmap : (natBytes (beNat (c :: rest))).map (fun b => b.val)
      = (c :: rest).map (fun b => b.val) := by
    unfold natBytes
    rw [List.map_reverse, leDigits_map_val _ _ (Nat.le_refl _), hdig, List.reverse_reverse]
  exact List.map_injective_iff.mpr Fin.val_injective hmap

/-! ## The decimal numeral passed to the encoder -/

/-- The character of a decimal digit. -/
theorem digitChar_val (d : Nat) (hd : d < 10) : ((Fin.ofNat (48 + d) : Byte)).val = 48 + d := by
  show (48 + d) % 256 = 48 + d
  omega

theorem decString_pos (n : Nat) (h : n ≠ 0) :
    decString n = ((Nat.digits 10 n).map (fun d => (Fin.ofNat (48 + d) : Byte))).reverse := by
  unfold decString
  rw [if_neg h, digitsLE_eq_digits 10 (by decide) n n (Nat.le_refl n)]

theorem decString_all_digits (n : Nat) :
    ∀ c ∈ decString n, 48 ≤ c.val ∧ c.val ≤ 57 := by
  intro c hc
  by_cases h : n = 0
  · subst h
    have : c = 48 := by simpa [decString] using hc
    subst this
    decide
  · rw [decString_pos n h, List.mem_reverse, List.mem_map] at hc
    obtain ⟨d, hd, rfl⟩ := hc
    have hlt : d < 10 := Nat.digits_lt_base (by decide) hd
    rw [digitChar_val d hlt]
    omega

theorem decString_ne_nil (n : Nat) : decString n ≠ [] := by
  by_cases h : n = 0
  · subst h
    simp [decString]
  · rw [decString_pos n h]
    intro hnil
    rw [List.reverse_eq_nil_iff, List.map_eq_nil_iff] at hnil
    exact h (Nat.digits_eq_nil_iff_eq_zero.mp hnil)

theorem digits_chars_value (L : List Nat) (hL : ∀ d ∈ L, d < 10) :
    ((L.map (fun d => (Fin.ofNat (48 + d) : Byte))).reverse).foldl
      (fun acc c => acc * 10 + (c.val - 48)) 0 = Nat.ofDigits 10 L := by
  rw [List.foldl_reverse]
  induction L with
  | nil => rfl
  | cons d t ih =>
    rw [List.map_cons, List.foldr_cons, ih (fun x hx => hL x (List.mem_cons_of_mem _ hx)),
      Nat.ofDigits_cons, digitChar_val d (hL d (List.mem_cons_self _ _))]
    rw [Nat.add_sub_cancel_left, Nat.mul_comm, Nat.add_comm]

theorem decString_value (n : Nat) :
    (decString n).foldl (fun acc c => acc * 10 + (c.val - 48)) 0 = n := by
  by_cases h : n = 0
  · subst h
    rfl
  · rw [decString_pos n h, digits_chars_value _ (fun d hd => Nat.digits_lt_base (by decide) hd),
      Nat.ofDigits_digits]

theorem parseDigits_decString (n : Nat) : parseDigits (decString n) = some n := by
  unfold parseDigits
  have hall : (decString n).all (fun c => decide (48 ≤ c.val ∧ c.val ≤ 57)) = true := by
    rw [List.all_eq_true]
    intro c hc
    exact decide_eq_true (decString_all_digits n c hc)
  rw [if_pos ⟨decString_ne_nil n, hall⟩, decString_value]

/-- The decimal numeral of `n` is read back as `n` by `SetString`. -/
theorem parseInt10_decString (n : Nat) : parseInt10 (decString n) = some (n : Int) := by
  have hp := parseDigits_decString n
  have hd := decString_all_digits n
  have hne := decString_ne_nil n
  cases hs : decString n with
  | nil => exact absurd hs hne
  | cons c ds =>
    rw [hs] at hp hd
    have hc := hd c (List.mem_cons_self _ _)
    unfold parseInt10
    have h45 : ¬ c.val = 45 := by omega
    have h43 : ¬ c.val = 43 := by omega
    simp only [h45, h43, if_false, hp]
    rfl

/-- The decimal numeral of a positive number does not start with `0`. -/
theorem decString_no_leading_zero (n : Nat) (h : n ≠ 0) :
    (decString n).takeWhile (fun c => decide (c.val = 48)) = [] := by
  rw [decString_pos n h]
  have hne : Nat.digits 10 n ≠ [] := Nat.digits_ne_nil_iff_ne_zero.mpr h
  have hlast := Nat.getLast_digit_ne_zero 10 h
  have hlt : (Nat.digits 10 n).getLast hne < 10 :=
    Nat.digits_lt_base (by decide) (List.getLast_mem hne)
  rw [← List.dropLast_append_getLast hne, List.map_append, List.reverse_append]
  simp only [List.map_cons, List.map_nil, List.reverse_cons, List.reverse_nil, List.nil_append,
    List.singleton_append]
  rw [List.takeWhile_cons, digitChar_val _ hlt]
  have : ¬ (48 + (Nat.digits 10 n).getLast hne = 48) := by omega
  simp only [this, decide_False]
  rfl

/-- The encoder on the decimal numeral of a positive number. -/
theorem base58Encode_decString (n : Nat) (h : n ≠ 0) :
    base58Encode (decString n) = Res.ok (base58Numeral n) := by
  unfold base58Encode
  rw [if_neg (decString_ne_nil n), parseInt10_decString]
  have hnn : ¬ ((n : Int) < 0) := by omega
  simp only [hnn, if_false, decString_no_leading_zero n h, List.length_nil, List.replicate_zero,
    List.nil_append, Int.toNat_ofNat]
  rw [digitsLE_eq_digits 58 (by decide) n n (Nat.le_refl n), ← List.map_reverse]
  rfl

/-- The encoder never fails on a decimal numeral. -/
theorem base58Encode_decString_isOk (n : Nat) : (base58Encode (decString n)).isOk = true := by
  unfold base58Encode
  rw [if_neg (decString_ne_nil n), parseInt10_decString]
  have hnn : ¬ ((n : Int) < 0) := by omega
  simp only [hnn, if_false]
  rfl

/-! ## Address strings -/

theorem prependOnes_zeros (k : Nat) (tail s : List Byte) :
    prependOnes (List.replicate k 0 ++ tail) s = prependOnes tail (List.replicate k oneChar ++ s) := by
  induction k generalizing s with
  | zero => rfl
  | succ j ih =>
    rw [List.replicate_succ, List.cons_append]
    show (if (0 : Byte) ≠ 0 then s else prependOnes (List.replicate j 0 ++ tail) (asciiBytes "1" ++ s))
      = _
    rw [if_neg (by decide), ih]
    congr 1
    rw [List.replicate_succ', List.append_assoc]
    rfl

theorem prependOnes_nonzero (c : Byte) (rest s : List Byte) (hc : c ≠ 0) :
    prependOnes (c :: rest) s = s := by
  show (if c ≠ 0 then s else prependOnes rest (asciiBytes "1" ++ s)) = s
  rw [if_pos hc]

theorem beNat_pos (c : Byte) (rest : List Byte) (hc : c ≠ 0) : beNat (c :: rest) ≠ 0 := by
  intro h0
  have hb := natBytes_beNat c rest hc
  rw [h0] at hb
  cases hb

/-- The value of a byte string does not change when zero bytes are put in front. -/
theorem beNat_split (k : Nat) (c : Byte) (rest : List Byte) :
    beNat (List.replicate k 0 ++ c :: rest) = beNat (c :: rest) :=
  beNat_zeros_append k (c :: rest)

/-- The result of `addrToStr` on `k` zero bytes followed by a non-zero byte. -/
theorem addrToStr_split (k : Nat) (c : Byte) (rest : List Byte) (hc : c ≠ 0) :
    addrToStr (List.replicate k 0 ++ c :: rest)
      = Res.ok (List.replicate k oneChar ++ base58Numeral (beNat (c :: rest))) := by
  unfold addrToStr
  simp only []
  rw [beNat_split, base58Encode_decString _ (beNat_pos c rest hc), Res.bind_ok, prependOnes_zeros,
    prependOnes_nonzero c rest _ hc]

set_option maxRecDepth 100000 in
theorem alphabet_ne_one : ∀ d : Nat, d < 58 → d ≠ 0 → base58Alphabet.getD d 0 ≠ oneChar := by
  decide

set_option maxRecDepth 100000 in
theorem alphabet_indexOf : ∀ d : Nat, d < 58 → base58Alphabet.indexOf (base58Alphabet.getD d 0) = d := by
  decide

/-- The numeral of a positive number: its first character is the character of
the leading digit, which is not zero. -/
theorem base58Numeral_head (n : Nat) (h : n ≠ 0) :
    ∃ (d : Nat) (t : List Byte), d < 58 ∧ d ≠ 0 ∧
      base58Numeral n = base58Alphabet.getD d 0 :: t := by
  have hne : Nat.digits 58 n ≠ [] := Nat.digits_ne_nil_iff_ne_zero.mpr h
  refine ⟨(Nat.digits 58 n).getLast hne,
    (Nat.digits 58 n).dropLast.reverse.map (fun d => base58Alphabet.getD d 0),
    Nat.digits_lt_base (by decide) (List.getLast_mem hne), Nat.getLast_digit_ne_zero 58 h, ?_⟩
  unfold base58Numeral
  conv_lhs => rw [← List.dropLast_append_getLast hne]
  rw [List.reverse_append]
  rfl

theorem base58Value_numeral (n : Nat) : base58Value (base58Numeral n) = n := by
  unfold base58Value base58Numeral
  rw [List.foldl_map]
  have key : ∀ (L : List Nat), (∀ d ∈ L, d < 58) →
      L.reverse.foldl (fun acc d => acc * 58 + base58Alphabet.indexOf (base58Alphabet.getD d 0)) 0
        = Nat.ofDigits 58 L := by
    intro L hL
    rw [List.foldl_reverse]
    induction L with
    | nil => rfl
    | cons d t ih =>
      rw [List.foldr_cons, ih (fun x hx => hL x (List.mem_cons_of_mem _ hx)), Nat.ofDigits_cons,
        alphabet_indexOf d (hL d (List.mem_cons_self _ _)), Nat.mul_comm, Nat.add_comm]
  rw [key _ (fun d hd => Nat.digits_lt_base (by decide) hd), Nat.ofDigits_digits]

theorem takeWhile_ones (k : Nat) (c : Byte) (t : List Byte) (hc : c ≠ oneChar) :
    (List.replicate k oneChar ++ c :: t).takeWhile (fun x => decide (x = oneChar))
      = List.replicate k oneChar := by
  induction k with
  | zero =>
    show (c :: t).takeWhile _ = []
    rw [List.takeWhile_cons]
    simp only [hc, decide_False]
    rfl
  | succ j ih =>
    rw [List.replicate_succ, List.cons_append, List.takeWhile_cons]
    simp only [decide_True, if_true]
    rw [ih]

theorem dropWhile_ones (k : Nat) (c : Byte) (t : List Byte) (hc : c ≠ oneChar) :
    (List.replicate k oneChar ++ c :: t).dropWhile (fun x => decide (x = oneChar)) = c :: t := by
  induction k with
  | zero =>
    show (c :: t).dropWhile _ = c :: t
    rw [List.dropWhile_cons]
    simp only [hc, decide_False]
    rfl
  | succ j ih =>
    rw [List.replicate_succ, List.cons_append, List.dropWhile_cons]
    simp only [decide_True, if_true]
    exact ih

/-- A byte string with a non-zero byte is a run of zero bytes followed by a
non-zero byte and the rest. -/
theorem split_leading_zeros (b : List Byte) (h : ∃ x ∈ b, x ≠ 0) :
    ∃ (k : Nat) (c : Byte) (rest : List Byte), c ≠ 0 ∧ b = List.replicate k 0 ++ c :: rest := by
  induction b with
  | nil =>
    obtain ⟨x, hx, -⟩ := h
    cases hx
  | cons a t ih =>
    by_cases ha : a = 0
    · subst ha
      have ht : ∃ x ∈ t, x ≠ 0 := by
        obtain ⟨x, hx, hx0⟩ := h
        rcases List.mem_cons.mp hx with e | e
        · exact absurd e hx0
        · exact ⟨x, e, hx0⟩
      obtain ⟨k, c, rest, hc, e⟩ := ih ht
      exact ⟨k + 1, c, rest, hc, by rw [e, List.replicate_succ, List.cons_append]⟩
    · exact ⟨0, a, t, ha, rfl⟩

/-- C11: on `k` zero bytes followed by a non-zero byte and the rest,
`addrToStr` returns `k` characters `1` followed by the base-58 numeral of the
bytes read as a big-endian integer; the numeral is not empty and does not
start with `1`, so the result has exactly `k` leading characters `1`. -/
theorem addrToStr_leading_ones (k : Nat) (c : Byte) (rest : List Byte) (hc : c ≠ 0) :
    addrToStr (List.replicate k 0 ++ c :: rest)
      = Res.ok (List.replicate k oneChar
          ++ base58Numeral (beNat (List.replicate k 0 ++ c :: rest))) ∧
    base58Numeral (beNat (List.replicate k 0 ++ c :: rest)) ≠ [] ∧
    (base58Numeral (beNat (List.replicate k 0 ++ c :: rest))).head? ≠ some oneChar ∧
    ((List.replicate k oneChar ++ base58Numeral (beNat (List.replicate k 0 ++ c :: rest))).takeWhile
      (fun x => decide (x = oneChar))).length = k := by
  rw [beNat_split]
  obtain ⟨d, t, hd, hd0, hnum⟩ := base58Numeral_head _ (beNat_pos c rest hc)
  have hne := alphabet_ne_one d hd hd0
  refine ⟨addrToStr_split k c rest hc, ?_, ?_, ?_⟩
  · rw [hnum]
    exact List.cons_ne_nil _ _
  · rw [hnum, List.head?_cons]
    intro h
    injection h with h
    exact hne h
  · rw [hnum, takeWhile_ones k _ t hne, List.length_replicate]

theorem addrToStr_leading_ones_witness :
    (1 : Byte) ≠ 0 ∧
    addrToStr (List.replicate 2 0 ++ 1 :: [2, 3])
      = Res.ok (List.replicate 2 oneChar
          ++ base58Numeral (beNat (List.replicate 2 0 ++ 1 :: [2, 3]))) ∧
    base58Numeral (beNat (List.replicate 2 0 ++ 1 :: [2, 3])) ≠ [] ∧
    (base58Numeral (beNat (List.replicate 2 0 ++ 1 :: [2, 3]))).head? ≠ some oneChar ∧
    ((List.replicate 2 oneChar ++ base58Numeral (beNat (List.replicate 2 0 ++ 1 :: [2, 3]))).takeWhile
      (fun x => decide (x = oneChar))).length = 2 :=
  ⟨by decide, addrToStr_leading_ones 2 1 [2, 3] (by decide)⟩

/-- The standard decoding of the address string of `k` zero bytes followed by a
non-zero byte and the rest gives the bytes back. -/
theorem stdBase58Decode_split (k : Nat) (c : Byte) (rest : List Byte) (hc : c ≠ 0) :
    stdBase58Decode (List.replicate k oneChar ++ base58Numeral (beNat (c :: rest)))
      = List.replicate k 0 ++ c :: rest := by
  obtain ⟨d, t, hd, hd0, hnum⟩ := base58Numeral_head _ (beNat_pos c rest hc)
  have hne := alphabet_ne_one d hd hd0
  unfold stdBase58Decode
  rw [hnum, takeWhile_ones k _ t hne, dropWhile_ones k _ t hne, ← hnum, base58Value_numeral,
    natBytes_beNat c rest hc, List.length_replicate]

/-- C12: for byte strings with a non-zero byte, the standard Base58 decoding of
`addrToStr(b)` is `b`; hence `addrToStr` is injective on such byte strings. -/
theorem base58_round_trip (b1 b2 : List Byte) (h1 : ∃ x ∈ b1, x ≠ 0) (h2 : ∃ x ∈ b2, x ≠ 0) :
    (∃ s : List Byte, addrToStr b1 = Res.ok s ∧ stdBase58Decode s = b1) ∧
    (addrToStr b1 = addrToStr b2 → b1 = b2) := by
  obtain ⟨k1, c1, r1, hc1, e1⟩ := split_leading_zeros b1 h1
  obtain ⟨k2, c2, r2, hc2, e2⟩ := split_leading_zeros b2 h2
  subst e1
  subst e2
  refine ⟨⟨_, addrToStr_split k1 c1 r1 hc1, stdBase58Decode_split k1 c1 r1 hc1⟩, ?_⟩
  intro heq
  rw [addrToStr_split k1 c1 r1 hc1, addrToStr_split k2 c2 r2 hc2] at heq
  injection heq with heq
  rw [← stdBase58Decode_split k1 c1 r1 hc1, ← stdBase58Decode_split k2 c2 r2 hc2, heq]

theorem base58_round_trip_witness :
    (∃ x ∈ ([0, 0, 1, 2] : List Byte), x ≠ 0) ∧ (∃ x ∈ ([0, 1, 2] : List Byte), x ≠ 0) ∧
    (∃ s : List Byte, addrToStr [0, 0, 1, 2] = Res.ok s ∧ stdBase58Decode s = [0, 0, 1, 2]) ∧
    (addrToStr [0, 0, 1, 2] = addrToStr [0, 1, 2] → ([0, 0, 1, 2] : List Byte) = [0, 1, 2]) :=
  ⟨by decide, by decide, base58_round_trip [0, 0, 1, 2] [0, 1, 2] (by decide) (by decide)⟩

theorem Res.isOk_iff {α : Type} (r : Res α) : r.isOk = true ↔ ∃ a, r = Res.ok a := by
  cases r with
  | ok a => exact ⟨fun _ => ⟨a, rfl⟩, fun _ => rfl⟩
  | err e =>
    constructor
    · intro h; cases h
    · rintro ⟨a, h⟩; cases h
  | panic e =>
    constructor
    · intro h; cases h
    · rintro ⟨a, h⟩; cases h

theorem addrToStr_isOk (b : List Byte) : (addrToStr b).isOk = true := by
  unfold addrToStr
  simp only []
  obtain ⟨enc, he⟩ := (Res.isOk_iff _).mp (base58Encode_decString_isOk (beNat b))
  rw [he, Res.bind_ok]
  rfl

/-- C13: `addrToStr` returns no error on any byte string, because the encoder
receives the decimal numeral of a non-negative integer; consequently
`sigmestoaddr` succeeds once `recover` has returned true. -/
theorem addrToStr_no_error (b : List Byte) (C : CurveOps) (signature message : List Byte)
    (msghash2 : List Byte) (sig : Signature) (recid : Int) (Q : C.XY)
    (hm : messagehash message hBSV = Res.ok msghash2)
    (hp : parseSignature signature = Res.ok (sig, recid))
    (hr : recover C sig C.zeroXY (beNat msghash2) recid = Res.ok (true, Q)) :
    (addrToStr b).isOk = true ∧ (addrToStr b).isErr = false ∧
    (sigmestoaddr C signature message).isOk = true := by
  obtain ⟨s, hs⟩ := (Res.isOk_iff _).mp (addrToStr_isOk b)
  refine ⟨addrToStr_isOk b, by rw [hs]; rfl, ?_⟩
  obtain ⟨s0, h0⟩ := (Res.isOk_iff _).mp (addrToStr_isOk (pubtoaddr C Q true [0]))
  obtain ⟨s1, h1⟩ := (Res.isOk_iff _).mp (addrToStr_isOk (pubtoaddr C Q false [0]))
  rw [(sigmestoaddr_ok_iff C signature message [s0, s1]).mpr
    ⟨msghash2, sig, recid, Q, s0, s1, hm, hp, hr, h0, h1, rfl⟩]
  rfl

set_option maxRecDepth 100000 in
theorem addrToStr_no_error_witness :
    ∃ (msghash2 : List Byte) (Q : Point),
      messagehash helloWorld hBSV = Res.ok msghash2 ∧
      parseSignature sigUncompressed = Res.ok (sampleSig, 1) ∧
      recover gocoin sampleSig gocoin.zeroXY (beNat msghash2) 1 = Res.ok (true, Q) ∧
      (addrToStr [0, 0, 0]).isOk = true ∧ (addrToStr [0, 0, 0]).isErr = false ∧
      (sigmestoaddr gocoin sigUncompressed helloWorld).isOk = true :=
  ⟨_, _, rfl, by decide, rfl,
    addrToStr_no_error [0, 0, 0] gocoin sigUncompressed helloWorld _ sampleSig 1 _ rfl (by decide)
      rfl⟩

/-! ## The first character of the candidate addresses -/

theorem prependOnes_head (l s : List Byte) :
    (prependOnes l (oneChar :: s)).head? = some oneChar := by
  induction l generalizing s with
  | nil => rfl
  | cons v rest ih =>
    show (if v ≠ 0 then oneChar :: s else prependOnes rest (asciiBytes "1" ++ (oneChar :: s))).head?
      = some oneChar
    by_cases hv : v ≠ 0
    · rw [if_pos hv]
      rfl
    · rw [if_neg hv]
      exact ih (oneChar :: s)

/-- An address string made from bytes that start with the version byte 0
starts with the character `1`. -/
theorem addrToStr_version_zero (t s : List Byte) (h : addrToStr (0 :: t) = Res.ok s) :
    s.head? = some oneChar := by
  unfold addrToStr at h
  obtain ⟨enc, -, h⟩ := (Res.bind_eq_ok_iff _ _ _).mp h
  injection h with h
  rw [← h]
  show (if (0 : Byte) ≠ 0 then enc else prependOnes t (asciiBytes "1" ++ enc)).head? = some oneChar
  rw [if_neg (by decide)]
  exact prependOnes_head t enc

/-- The bytes returned by `pubtoaddr`. -/
theorem pubtoaddr_eq (C : CurveOps) (Q : C.XY) (compressed : Bool) (magic : List Byte) :
    pubtoaddr C Q compressed magic
      = magic ++ (ripemd160 (sha256 (C.getPublicKey Q
            (List.replicate (if compressed then 33 else 65) 0)))
          ++ (sha256d (magic ++ ripemd160 (sha256 (C.getPublicKey Q
            (List.replicate (if compressed then 33 else 65) 0))))).take 4) := by
  unfold pubtoaddr
  exact List.append_assoc _ _ _

theorem pubtoaddr_version_zero (C : CurveOps) (Q : C.XY) (compressed : Bool) :
    ∃ t : List Byte, pubtoaddr C Q compressed [0] = 0 :: t := by
  rw [pubtoaddr_eq]
  exact ⟨_, List.singleton_append⟩

/-- Every address returned by `sigmestoaddr` starts with the character `1`. -/
theorem sigmestoaddr_heads (C : CurveOps) (signature data : List Byte)
    (addrs : List (List Byte)) (h : sigmestoaddr C signature data = Res.ok addrs) :
    ∀ a ∈ addrs, a.head? = some oneChar := by
  obtain ⟨msghash2, sig, recid, Q, s0, s1, -, -, -, h0, h1, ha⟩ :=
    (sigmestoaddr_ok_iff C signature data addrs).mp h
  obtain ⟨t0, e0⟩ := pubtoaddr_version_zero C Q true
  obtain ⟨t1, e1⟩ := pubtoaddr_version_zero C Q false
  rw [e0] at h0
  rw [e1] at h1
  intro a hmem
  rw [ha] at hmem
  rcases List.mem_cons.mp hmem with e | hmem
  · rw [e]
    exact addrToStr_version_zero t0 s0 h0
  · rcases List.mem_cons.mp hmem with e | hmem
    · rw [e]
      exact addrToStr_version_zero t1 s1 h1
    · cases hmem

/-- C19: every candidate address produced by `sigmestoaddr` starts with the
character `1`, so for an address that is empty or does not start with `1`
`VerifyMessage` never returns true. The claim says that it returns false for
every signature and message; with the empty signature it panics instead (the
missing length check of `parseSignature`). -/
theorem VerifyMessage_address_prefix (C : CurveOps) (address signature data : List Byte)
    (haddr : address.head? ≠ some oneChar) (hdata : data.length < 253) :
    (∀ addrs : List (List Byte), sigmestoaddr C signature data = Res.ok addrs →
      ∀ a ∈ addrs, a.head? = some oneChar) ∧
    VerifyMessage C address signature data ≠ Res.ok true ∧
    VerifyMessage C address [] data = Res.panic "index out of range" := by
  refine ⟨sigmestoaddr_heads C signature data, ?_, ?_⟩
  · unfold VerifyMessage
    cases hs : sigmestoaddr C signature data with
    | err e =>
      intro h
      injection h with h
      cases h
    | panic e =>
      intro h
      cases h
    | ok addrs =>
      intro h
      injection h with h
      obtain ⟨msghash2, sig, recid, Q, s0, s1, -, -, -, -, -, ha⟩ :=
        (sigmestoaddr_ok_iff C signature data addrs).mp hs
      have hh := sigmestoaddr_heads C signature data addrs hs
      rw [ha] at h hh
      by_cases e0 : address = s0
      · exact haddr (e0 ▸ hh s0 (List.mem_cons_self _ _))
      · by_cases e1 : address = s1
        · exact haddr (e1 ▸ hh s1 (List.mem_cons_of_mem _ (List.mem_cons_self _ _)))
        · simp only [matchAny, e0, e1, if_false] at h
          cases h
  · unfold VerifyMessage sigmestoaddr
    rw [messagehash_of_short data hBSV (by decide) hdata, Res.bind_ok, parseSignature_nil,
      Res.bind_panic]

theorem VerifyMessage_address_prefix_witness :
    (asciiBytes "3J98t1WpEZ73CNmQviecrnyiWrnqRhWNLy").head? ≠ some oneChar ∧
    helloWorld.length < 253 ∧
    (∀ addrs : List (List Byte), sigmestoaddr gocoin sigUncompressed helloWorld = Res.ok addrs →
      ∀ a ∈ addrs, a.head? = some oneChar) ∧
    VerifyMessage gocoin (asciiBytes "3J98t1WpEZ73CNmQviecrnyiWrnqRhWNLy") sigUncompressed
      helloWorld ≠ Res.ok true ∧
    VerifyMessage gocoin (asciiBytes "3J98t1WpEZ73CNmQviecrnyiWrnqRhWNLy") [] helloWorld
      = Res.panic "index out of range" :=
  ⟨by decide, by decide,
    VerifyMessage_address_prefix gocoin (asciiBytes "3J98t1WpEZ73CNmQviecrnyiWrnqRhWNLy")
      sigUncompressed helloWorld (by decide) (by decide)⟩

/-! ## Primality of the field prime -/

/-- The value computed by `powMod`. -/
theorem powMod_spec (m fuel base e acc : Nat) (h : e < 2 ^ fuel) :
    powMod m fuel base e acc % m = acc * base ^ e % m := by
  induction fuel generalizing base e acc with
  | zero =>
    have : e = 0 := by
      rw [pow_zero] at h
      omega
    subst this
    simp [powMod]
  | succ f ih =>
    unfold powMod
    by_cases h0 : e = 0
    · rw [if_pos h0, h0, pow_zero, Nat.mul_one]
    · rw [if_neg h0]
      have hlt : e / 2 < 2 ^ f := by
        rw [pow_succ] at h
        omega
      rw [ih _ _ _ hlt]
      have hsq : (base * base % m) ^ (e / 2) ≡ base ^ (2 * (e / 2)) [MOD m] := by
        rw [pow_mul]
        exact ((Nat.mod_modEq _ _).trans (by rw [sq])).pow _
      by_cases h1 : e % 2 = 1
      · rw [if_pos h1]
        have he : base ^ e = base * base ^ (2 * (e / 2)) := by
          rw [← pow_succ']
          congr 1
          omega
        show (acc * base % m) * (base * base % m) ^ (e / 2) ≡ acc * base ^ e [MOD m]
        rw [he, ← Nat.mul_assoc]
        exact (Nat.mod_modEq _ _).mul hsq
      · rw [if_neg h1]
        have he : base ^ e = base ^ (2 * (e / 2)) := by
          congr 1
          omega
        show acc * (base * base % m) ^ (e / 2) ≡ acc * base ^ e [MOD m]
        rw [he]
        exact (Nat.ModEq.refl acc).mul hsq

/-- Lucas test with the prime factors of `p - 1` given as a list. -/
theorem lucas_cert (p a : Nat) (fs : List Nat) (hp : 1 < p) (hbits : p < 2 ^ 256)
    (hprod : fs.prod = p - 1) (hprime : ∀ q ∈ fs, q.Prime)
    (h1 : powMod p 256 a (p - 1) 1 % p = 1)
    (hq : ∀ q ∈ fs, powMod p 256 a ((p - 1) / q) 1 % p ≠ 1) : p.Prime := by
  have cast_pow : ∀ e : Nat, e < 2 ^ 256 →
      ((a : ZMod p) ^ e = 1 ↔ powMod p 256 a e 1 % p = 1) := by
    intro e he
    rw [powMod_spec p 256 a e 1 he, Nat.one_mul, ← Nat.cast_pow]
    have h1p : 1 % p = 1 := Nat.mod_eq_of_lt hp
    constructor
    · intro h
      have := (ZMod.natCast_eq_natCast_iff' (a ^ e) 1 p).mp (by simpa using h)
      rw [this, h1p]
    · intro h
      have := (ZMod.natCast_eq_natCast_iff' (a ^ e) 1 p).mpr (by rw [h, h1p])
      simpa using this
  apply lucas_primality p (a : ZMod p)
  · exact (cast_pow (p - 1) (by omega)).mpr h1
  · intro q hqp hdvd
    rw [← hprod] at hdvd
    obtain ⟨r, hr, hqr⟩ := (Prime.dvd_prod_iff hqp.prime).mp hdvd
    have hrq : q = r := (Nat.prime_dvd_prime_iff_eq hqp (hprime r hr)).mp hqr
    subst hrq
    intro hpow
    have hle : (p - 1) / q ≤ p - 1 := Nat.div_le_self _ _
    exact hq q hr ((cast_pow ((p - 1) / q) (by omega)).mp hpow)

set_option maxRecDepth 100000 in
theorem prime_1206781 : Nat.Prime 1206781 := by
  apply lucas_cert 1206781 10 [2, 2, 3, 5, 20113]
  · decide
  · decide
  · decide
  · intro q hq
    simp only [List.mem_cons, List.mem_singleton, List.not_mem_nil, or_false] at hq
    rcases hq with rfl | rfl | rfl | rfl | rfl
    · norm_num
    · norm_num
    · norm_num
    · norm_num
    · norm_num
  · decide
  · decide

set_option maxRecDepth 100000 in
theorem prime_7240687 : Nat.Prime 7240687 := by
  apply lucas_cert 7240687 3 [2, 3, 1206781]
  · decide
  · decide
  · decide
  · intro q hq
    simp only [List.mem_cons, List.mem_singleton, List.not_mem_nil, or_false] at hq
    rcases hq with rfl | rfl | rfl
    · norm_num
    · norm_num
    · exact prime_1206781
  · decide
  · decide

set_option maxRecDepth 100000 in
theorem prime_13331831 : Nat.Prime 13331831 := by
  apply lucas_cert 13331831 13 [2, 5, 971, 1373]
  · decide
  · decide
  · decide
  · intro q hq
    simp only [List.mem_cons, List.mem_singleton, List.not_mem_nil, or_false] at hq
    rcases hq with rfl | rfl | rfl | rfl
    · norm_num
    · norm_num
    · norm_num
    · norm_num
  · decide
  · decide

set_option maxRecDepth 100000 in
theorem prime_107590001 : Nat.Prime 107590001 := by
  apply lucas_cert 107590001 3 [2, 2, 2, 2, 5, 5, 5, 5, 7, 29, 53]
  · decide
  · decide
  · decide
  · intro q hq
    simp only [List.mem_cons, List.mem_singleton, List.not_mem_nil, or_false] at hq
    rcases hq with rfl | rfl | rfl | rfl | rfl | rfl | rfl | rfl | rfl | rfl | rfl
    · norm_num
    · norm_num
    · norm_num
    · norm_num
    · norm_num
    · norm_num
    · norm_num
    · norm_num
    · norm_num
    · norm_num
    · norm_num
  · decide
  · decide

set_option maxRecDepth 100000 in
theorem prime_173378_18 : Nat.Prime 173378833005251801 := by
  apply lucas_cert 173378833005251801 6 [2, 2, 2, 5, 5, 2621, 24809, 13331831]
  · decide
  · decide
  · decide
  · intro q hq
    simp only [List.mem_cons, List.mem_singleton, List.not_mem_nil, or_false] at hq
    rcases hq with rfl | rfl | rfl | rfl | rfl | rfl | rfl | rfl
    · norm_num
    · norm_num
    · norm_num
    · norm_num
    · norm_num
    · norm_num
    · norm_num
    · exact prime_13331831
  · decide
  · decide

set_option maxRecDepth 100000 in
theorem prime_221494_23 : Nat.Prime 22149492674086928081353 := by
  apply lucas_cert 22149492674086928081353 5 [2, 2, 2, 3, 5323, 173378833005251801]
  · decide
  · decide
  · decide
  · intro q hq
    simp only [List.mem_cons, List.mem_singleton, List.not_mem_nil, or_false] at hq
    rcases hq with rfl | rfl | rfl | rfl | rfl | rfl
    · norm_num
    · norm_num
    · norm_num
    · norm_num
    · norm_num
    · exact prime_173378_18
  · decide
  · decide

set_option maxRecDepth 100000 in
theorem prime_132896_24 : Nat.Prime 132896956044521568488119 := by
  apply lucas_cert 132896956044521568488119 6 [2, 3, 22149492674086928081353]
  · decide
  · decide
  · decide
  · intro q hq
    simp only [List.mem_cons, List.mem_singleton, List.not_mem_nil, or_false] at hq
    rcases hq with rfl | rfl | rfl
    · norm_num
    · norm_num
    · exact prime_221494_23
  · decide
  · decide

set_option maxRecDepth 100000 in
theorem prime_255515_39 : Nat.Prime 255515944373312847190720520512484175977 := by
  apply lucas_cert 255515944373312847190720520512484175977 3 [2, 2, 2, 7, 7, 11, 1627, 2657, 4423, 41201, 96557, 7240687, 107590001]
  · decide
  · decide
  · decide
  · intro q hq
    simp only [List.mem_cons, List.mem_singleton, List.not_mem_nil, or_false] at hq
    rcases hq with rfl | rfl | rfl | rfl | rfl | rfl | rfl | rfl | rfl | rfl | rfl | rfl | rfl
    · norm_num
    · norm_num
    · norm_num
    · norm_num
    · norm_num
    · norm_num
    · norm_num
    · norm_num
    · norm_num
    · norm_num
    · norm_num
    · exact prime_7240687
    · exact prime_107590001
  · decide
  · decide

set_option maxRecDepth 100000 in
theorem prime_205115_72 : Nat.Prime 205115282021455665897114700593932402728804164701536103180137503955397371 := by
  apply lucas_cert 205115282021455665897114700593932402728804164701536103180137503955397371 10 [2, 3, 5, 29, 29, 31, 7723, 132896956044521568488119, 255515944373312847190720520512484175977]
  · decide
  · decide
  · decide
  · intro q hq
    simp only [List.mem_cons, List.mem_singleton, List.not_mem_nil, or_false] at hq
    rcases hq with rfl | rfl | rfl | rfl | rfl | rfl | rfl | rfl | rfl
    · norm_num
    · norm_num
    · norm_num
    · norm_num
    · norm_num
    · norm_num
    · norm_num
    · exact prime_132896_24
    · exact prime_255515_39
  · decide
  · decide

set_option maxRecDepth 100000 in
theorem theCurveP_prime_value : Nat.Prime 115792089237316195423570985008687907853269984665640564039457584007908834671663 := by
  apply lucas_cert 115792089237316195423570985008687907853269984665640564039457584007908834671663 3 [2, 3, 7, 13441, 205115282021455665897114700593932402728804164701536103180137503955397371]
  · decide
  · decide
  · decide
  · intro q hq
    simp only [List.mem_cons, List.mem_singleton, List.not_mem_nil, or_false] at hq
    rcases hq with rfl | rfl | rfl | rfl | rfl
    · norm_num
    · norm_num
    · norm_num
    · norm_num
    · exact prime_205115_72
  · decide
  · decide


/-! ## Primality of the order of the group -/

set_option maxRecDepth 100000 in
theorem prime_120233 : Nat.Prime 120233 := by
  apply lucas_cert 120233 3 [2, 2, 2, 7, 19, 113]
  · decide
  · decide
  · decide
  · intro q hq
    simp only [List.mem_cons, List.mem_singleton, List.not_mem_nil, or_false] at hq
    rcases hq with rfl | rfl | rfl | rfl | rfl | rfl
    · norm_num
    · norm_num
    · norm_num
    · norm_num
    · norm_num
    · norm_num
  · decide
  · decide

set_option maxRecDepth 100000 in
theorem prime_305873 : Nat.Prime 305873 := by
  apply lucas_cert 305873 3 [2, 2, 2, 2, 7, 2731]
  · decide
  · decide
  · decide
  · intro q hq
    simp only [List.mem_cons, List.mem_singleton, List.not_mem_nil, or_false] at hq
    rcases hq with rfl | rfl | rfl | rfl | rfl | rfl
    · norm_num
    · norm_num
    · norm_num
    · norm_num
    · norm_num
    · norm_num
  · decide
  · decide

set_option maxRecDepth 100000 in
theorem prime_1627771 : Nat.Prime 1627771 := by
  apply lucas_cert 1627771 3 [2, 3, 5, 29, 1871]
  · decide
  · decide
  · decide
  · intro q hq
    simp only [List.mem_cons, List.mem_singleton, List.not_mem_nil, or_false] at hq
    rcases hq with rfl | rfl | rfl | rfl | rfl
    · norm_num
    · norm_num
    · norm_num
    · norm_num
    · norm_num
  · decide
  · decide

set_option maxRecDepth 100000 in
theorem prime_4681609 : Nat.Prime 4681609 := by
  apply lucas_cert 4681609 23 [2, 2, 2, 3, 97, 2011]
  · decide
  · decide
  · decide
  · intro q hq
    simp only [List.mem_cons, List.mem_singleton, List.not_mem_nil, or_false] at hq
    rcases hq with rfl | rfl | rfl | rfl | rfl | rfl
    · norm_num
    · norm_num
    · norm_num
    · norm_num
    · norm_num
    · norm_num
  · decide
  · decide

set_option maxRecDepth 100000 in
theorem prime_44706919 : Nat.Prime 44706919 := by
  apply lucas_cert 44706919 6 [2, 3, 797, 9349]
  · decide
  · decide
  · decide
  · intro q hq
    simp only [List.mem_cons, List.mem_singleton, List.not_mem_nil, or_false] at hq
    rcases hq with rfl | rfl | rfl | rfl
    · norm_num
    · norm_num
    · norm_num
    · norm_num
  · decide
  · decide

set_option maxRecDepth 100000 in
theorem prime_545358713 : Nat.Prime 545358713 := by
  apply lucas_cert 545358713 5 [2, 2, 2, 41, 59, 28181]
  · decide
  · decide
  · decide
  · intro q hq
    simp only [List.mem_cons, List.mem_singleton, List.not_mem_nil, or_false] at hq
    rcases hq with rfl | rfl | rfl | rfl | rfl | rfl
    · norm_num
    · norm_num
    · norm_num
    · norm_num
    · norm_num
    · norm_num
  · decide
  · decide

set_option maxRecDepth 100000 in
theorem prime_297159_12 : Nat.Prime 297159362677 := by
  apply lucas_cert 297159362677 2 [2, 2, 3, 3, 11, 461, 1627771]
  · decide
  · decide
  · decide
  · intro q hq
    simp only [List.mem_cons, List.mem_singleton, List.not_mem_nil, or_false] at hq
    rcases hq with rfl | rfl | rfl | rfl | rfl | rfl | rfl
    · norm_num
    · norm_num
    · norm_num
    · norm_num
    · norm_num
    · norm_num
    · exact prime_1627771
  · decide
  · decide

set_option maxRecDepth 100000 in
theorem prime_107361_18 : Nat.Prime 107361793816595537 := by
  apply lucas_cert 107361793816595537 3 [2, 2, 2, 2, 16699, 85831, 4681609]
  · decide
  · decide
  · decide
  · intro q hq
    simp only [List.mem_cons, List.mem_singleton, List.not_mem_nil, or_false] at hq
    rcases hq with rfl | rfl | rfl | rfl | rfl | rfl | rfl
    · norm_num
    · norm_num
    · norm_num
    · norm_num
    · norm_num
    · norm_num
    · exact prime_4681609
  · decide
  · decide

set_option maxRecDepth 100000 in
theorem prime_174723_21 : Nat.Prime 174723607534414371449 := by
  apply lucas_cert 174723607534414371449 3 [2, 2, 2, 17, 59, 4051, 120233, 44706919]
  · decide
  · decide
  · decide
  · intro q hq
    simp only [List.mem_cons, List.mem_singleton, List.not_mem_nil, or_false] at hq
    rcases hq with rfl | rfl | rfl | rfl | rfl | rfl | rfl | rfl
    · norm_num
    · norm_num
    · norm_num
    · norm_num
    · norm_num
    · norm_num
    · exact prime_120233
    · exact prime_44706919
  · decide
  · decide

set_option maxRecDepth 100000 in
theorem prime_290476_29 : Nat.Prime 29047611873442575647497758179 := by
  apply lucas_cert 29047611873442575647497758179 2 [2, 293, 305873, 545358713, 297159362677]
  · decide
  · decide
  · decide
  · intro q hq
    simp only [List.mem_cons, List.mem_singleton, List.not_mem_nil, or_false] at hq
    rcases hq with rfl | rfl | rfl | rfl | rfl
    · norm_num
    · norm_num
    · exact prime_305873
    · exact prime_545358713
    · exact prime_297159_12
  · decide
  · decide

set_option maxRecDepth 100000 in
theorem prime_341948_33 : Nat.Prime 341948486974166000522343609283189 := by
  apply lucas_cert 341948486974166000522343609283189 2 [2, 2, 3, 3, 3, 109, 29047611873442575647497758179]
  · decide
  · decide
  · decide
  · intro q hq
    simp only [List.mem_cons, List.mem_singleton, List.not_mem_nil, or_false] at hq
    rcases hq with rfl | rfl | rfl | rfl | rfl | rfl | rfl
    · norm_num
    · norm_num
    · norm_num
    · norm_num
    · norm_num
    · norm_num
    · exact prime_290476_29
  · decide
  · decide

set_option maxRecDepth 100000 in
theorem secpOrder_prime_value : Nat.Prime 115792089237316195423570985008687907852837564279074904382605163141518161494337 := by
  apply lucas_cert 115792089237316195423570985008687907852837564279074904382605163141518161494337 7 [2, 2, 2, 2, 2, 2, 3, 149, 631, 107361793816595537, 174723607534414371449, 341948486974166000522343609283189]
  · decide
  · decide
  · decide
  · intro q hq
    simp only [List.mem_cons, List.mem_singleton, List.not_mem_nil, or_false] at hq
    rcases hq with rfl | rfl | rfl | rfl | rfl | rfl | rfl | rfl | rfl | rfl | rfl | rfl
    · norm_num
    · norm_num
    · norm_num
    · norm_num
    · norm_num
    · norm_num
    · norm_num
    · norm_num
    · norm_num
    · exact prime_107361_18
    · exact prime_174723_21
    · exact prime_341948_33
  · decide
  · decide



/-! ## The model and the curve group -/

theorem theCurveP_eq :
    theCurveP = 115792089237316195423570985008687907853269984665640564039457584007908834671663 := by
  decide

theorem theCurveP_prime : Nat.Prime theCurveP := by
  rw [theCurveP_eq]
  exact theCurveP_prime_value

/-- The integers modulo `theCurveP` are a field. -/
@[instance]
theorem theCurveP_fact : Fact (Nat.Prime theCurveP) := ⟨theCurveP_prime⟩

/-- The field inverse computed by `fieldInv`. -/
theorem fieldInv_cast (a : Nat) :
    ((fieldInv a : Nat) : ZMod theCurveP) = ((a : Nat) : ZMod theCurveP)⁻¹ := by
  have hspec := powMod_spec theCurveP 256 (a % theCurveP) (theCurveP - 2) 1 (by decide)
  have h1 : ((fieldInv a : Nat) : ZMod theCurveP)
      = (((a % theCurveP) ^ (theCurveP - 2) : Nat) : ZMod theCurveP) := by
    rw [← ZMod.natCast_mod (fieldInv a), ← ZMod.natCast_mod ((a % theCurveP) ^ (theCurveP - 2))]
    unfold fieldInv
    rw [hspec, Nat.one_mul]
  rw [h1, Nat.cast_pow, ZMod.natCast_mod]
  by_cases h0 : (a : ZMod theCurveP) = 0
  · rw [h0, inv_zero]
    exact zero_pow (by decide)
  · apply eq_inv_of_mul_eq_one_left
    rw [← pow_succ]
    have : theCurveP - 2 + 1 = theCurveP - 1 := by decide
    rw [this]
    exact ZMod.pow_card_sub_one_eq_one h0



theorem secp_equation_iff (x y : ZMod theCurveP) :
    secp.toAffine.Equation x y ↔ y ^ 2 = x ^ 3 + 7 := by
  rw [WeierstrassCurve.Affine.equation_iff]
  simp [secp]

theorem secp_negY (x y : ZMod theCurveP) : secp.toAffine.negY x y = -y := by
  simp [WeierstrassCurve.Affine.negY, secp]

theorem natCast_ne_zero_of_lt (n : Nat) (h0 : n ≠ 0)
    (hlt : n < theCurveP) : ((n : Nat) : ZMod theCurveP) ≠ 0 := by
  intro h
  rw [ZMod.natCast_zmod_eq_zero_iff_dvd] at h
  exact absurd (Nat.le_of_dvd (Nat.pos_of_ne_zero h0) h) (by omega)

theorem two_ne_zero_secp : (2 : ZMod theCurveP) ≠ 0 := by
  have := natCast_ne_zero_of_lt 2 (by decide) (by decide)
  exact_mod_cast this

theorem three_ne_zero_secp : (3 : ZMod theCurveP) ≠ 0 := by
  have := natCast_ne_zero_of_lt 3 (by decide) (by decide)
  exact_mod_cast this

theorem seven_ne_zero_secp : (7 : ZMod theCurveP) ≠ 0 := by
  have := natCast_ne_zero_of_lt 7 (by decide) (by decide)
  exact_mod_cast this

/-- Every point of the curve is non-singular. -/
theorem secp_nonsingular (x y : ZMod theCurveP)
    (h : secp.toAffine.Equation x y) : secp.toAffine.Nonsingular x y := by
  rw [WeierstrassCurve.Affine.nonsingular_iff]
  refine ⟨h, ?_⟩
  rw [secp_equation_iff] at h
  simp only [secp, mul_zero, zero_mul, add_zero, sub_zero]
  by_cases hy : y = 0
  · left
    subst hy
    have hx : x ≠ 0 := by
      intro hx
      subst hx
      simp at h
      exact seven_ne_zero_secp h.symm
    intro h3
    have : (3 : ZMod theCurveP) * x ^ 2 ≠ 0 := mul_ne_zero three_ne_zero_secp (pow_ne_zero 2 hx)
    exact this h3.symm
  · right
    intro hyy
    have h2 : (2 : ZMod theCurveP) * y = 0 := by
      have := congrArg (fun t => t + y) hyy
      simp only [neg_add_cancel] at this
      rw [two_mul]
      exact this
    rcases mul_eq_zero.mp h2 with h | h
    · exact two_ne_zero_secp h
    · exact hy h

theorem natCast_eq_iff_mod (a b : Nat) :
    ((a : Nat) : ZMod theCurveP) = ((b : Nat) : ZMod theCurveP) ↔ a % theCurveP = b % theCurveP :=
  ZMod.natCast_eq_natCast_iff' a b theCurveP

/-- The cast of the representative `p - n mod p` of `-n`. -/
theorem natCast_neg (n : Nat) :
    ((theCurveP - n % theCurveP : Nat) : ZMod theCurveP) = -((n : Nat) : ZMod theCurveP) := by
  have hle : n % theCurveP ≤ theCurveP := Nat.le_of_lt (Nat.mod_lt _ (by decide))
  rw [Nat.cast_sub hle, ZMod.natCast_self, ZMod.natCast_mod, zero_sub]

theorem pointIsValid_iff (a : Point) :
    pointIsValid a = true ↔
      a.infinity = false ∧
      secp.toAffine.Equation ((a.x : Nat) : ZMod theCurveP) ((a.y : Nat) : ZMod theCurveP) := by
  unfold pointIsValid
  rw [secp_equation_iff]
  have key : (a.y * a.y % theCurveP = (a.x * a.x % theCurveP * a.x + 7) % theCurveP) ↔
      ((a.y : Nat) : ZMod theCurveP) ^ 2 = ((a.x : Nat) : ZMod theCurveP) ^ 3 + 7 := by
    rw [← Nat.mod_mod (a.y * a.y), ← natCast_eq_iff_mod]
    simp only [Nat.cast_add, Nat.cast_mul, ZMod.natCast_mod, Nat.cast_ofNat]
    constructor
    · intro h
      rw [sq, h]
      ring
    · intro h
      rw [← sq, h]
      ring
  cases hinf : a.infinity with
  | true => simp
  | false =>
    simp only [Bool.false_eq_true, if_false, decide_eq_true_eq, true_and]
    exact key

theorem toCurve_of_infinity (a : Point) (h : a.infinity = true) : toCurve a = 0 := by
  unfold toCurve
  rw [dif_neg]
  intro hh
  rw [h] at hh
  exact absurd hh.1 (by decide)

theorem toCurve_eq_some (a : Point) (hinf : a.infinity = false) (x y : ZMod theCurveP)
    (h : secp.toAffine.Nonsingular x y) (hx : ((a.x : Nat) : ZMod theCurveP) = x)
    (hy : ((a.y : Nat) : ZMod theCurveP) = y) :
    toCurve a = WeierstrassCurve.Affine.Point.some h := by
  subst hx
  subst hy
  unfold toCurve
  rw [dif_pos ⟨hinf, h⟩]

/-- A point whose coordinates, cast to the field, are on the curve is good. -/
theorem pointGood_of_equation (a : Point) (hinf : a.infinity = false)
    (h : secp.toAffine.Equation ((a.x : Nat) : ZMod theCurveP) ((a.y : Nat) : ZMod theCurveP)) :
    pointGood a = true := by
  unfold pointGood
  rw [(pointIsValid_iff a).mpr ⟨hinf, h⟩, Bool.or_true]

theorem pointGood_cases (a : Point) (h : pointGood a = true) :
    a.infinity = true ∨ (a.infinity = false ∧
      secp.toAffine.Equation ((a.x : Nat) : ZMod theCurveP) ((a.y : Nat) : ZMod theCurveP)) := by
  unfold pointGood at h
  cases hinf : a.infinity with
  | true => exact Or.inl rfl
  | false =>
    rw [hinf, Bool.false_or] at h
    exact Or.inr ⟨rfl, ((pointIsValid_iff a).mp h).2⟩



theorem natCast_eq_zero_iff_mod (n : Nat) :
    ((n : Nat) : ZMod theCurveP) = 0 ↔ n % theCurveP = 0 := by
  rw [ZMod.natCast_zmod_eq_zero_iff_dvd, Nat.dvd_iff_mod_eq_zero]

/-- A point of the model with given field coordinates on the curve. -/
theorem curve_result (r : Point) (hinf : r.infinity = false)
    (X Y : ZMod theCurveP) (hns : secp.toAffine.Nonsingular X Y)
    (hx : ((r.x : Nat) : ZMod theCurveP) = X) (hy : ((r.y : Nat) : ZMod theCurveP) = Y) :
    pointGood r = true ∧ toCurve r = WeierstrassCurve.Affine.Point.some hns := by
  refine ⟨pointGood_of_equation r hinf ?_, toCurve_eq_some r hinf X Y hns hx hy⟩
  rw [hx, hy]
  exact hns.1

theorem pointGood_infinity : pointGood ⟨0, 0, true⟩ = true := rfl

theorem toCurve_infinity : toCurve ⟨0, 0, true⟩ = 0 := toCurve_of_infinity _ rfl

/-- Doubling in the model is doubling in the curve group. -/
theorem pointDouble_curve (a : Point) (ha : pointGood a = true) :
    pointGood (pointDouble a) = true ∧ toCurve (pointDouble a) = toCurve a + toCurve a := by
  rcases pointGood_cases a ha with hinf | ⟨hinf, heq⟩
  · have hd : pointDouble a = ⟨0, 0, true⟩ := by
      unfold pointDouble
      rw [hinf]
      rfl
    rw [hd, toCurve_of_infinity a hinf, toCurve_infinity, add_zero]
    exact ⟨pointGood_infinity, rfl⟩
  · have hns := secp_nonsingular _ _ heq
    rw [toCurve_eq_some a hinf _ _ hns rfl rfl]
    by_cases hy0 : a.y % theCurveP = 0
    · have hd : pointDouble a = ⟨0, 0, true⟩ := by
        unfold pointDouble
        rw [hinf]
        simp only [Bool.false_or, hy0, decide_True, if_true]
      have hyF : ((a.y : Nat) : ZMod theCurveP) = 0 := (natCast_eq_zero_iff_mod a.y).mpr hy0
      rw [hd, toCurve_infinity]
      refine ⟨pointGood_infinity, ?_⟩
      rw [WeierstrassCurve.Affine.Point.add_self_of_Y_eq]
      rw [secp_negY, hyF, neg_zero]
    · have hd : pointDouble a =
          ⟨(3 * (a.x * a.x % theCurveP) % theCurveP * fieldInv (2 * a.y) % theCurveP
              * (3 * (a.x * a.x % theCurveP) % theCurveP * fieldInv (2 * a.y) % theCurveP)
              + 2 * (theCurveP - a.x % theCurveP)) % theCurveP,
            (3 * (a.x * a.x % theCurveP) % theCurveP * fieldInv (2 * a.y) % theCurveP
              * (a.x % theCurveP + (theCurveP -
                (3 * (a.x * a.x % theCurveP) % theCurveP * fieldInv (2 * a.y) % theCurveP
                  * (3 * (a.x * a.x % theCurveP) % theCurveP * fieldInv (2 * a.y) % theCurveP)
                  + 2 * (theCurveP - a.x % theCurveP)) % theCurveP))
              + (theCurveP - a.y % theCurveP)) % theCurveP, false⟩ := by
        unfold pointDouble
        rw [hinf]
        simp only [Bool.false_or, hy0, decide_False, Bool.false_eq_true, if_false]
      have hyF : ((a.y : Nat) : ZMod theCurveP) ≠ 0 :=
        fun h => hy0 ((natCast_eq_zero_iff_mod a.y).mp h)
      have hneg : ((a.y : Nat) : ZMod theCurveP)
          ≠ secp.toAffine.negY ((a.x : Nat) : ZMod theCurveP) ((a.y : Nat) : ZMod theCurveP) := by
        rw [secp_negY]
        intro h
        have h2 : (2 : ZMod theCurveP) * ((a.y : Nat) : ZMod theCurveP) = 0 := by
          rw [two_mul]
          nth_rewrite 2 [h]
          exact add_neg_cancel _
        rcases mul_eq_zero.mp h2 with h3 | h3
        · exact two_ne_zero_secp h3
        · exact hyF h3
      rw [hd, WeierstrassCurve.Affine.Point.add_self_of_Y_ne hneg]
      apply curve_result _ rfl
      · simp only [Nat.cast_add, Nat.cast_mul, ZMod.natCast_mod, natCast_neg, fieldInv_cast,
          Nat.cast_ofNat, WeierstrassCurve.Affine.addX,
          WeierstrassCurve.Affine.slope_of_Y_ne rfl hneg, secp_negY]
        simp only [secp]
        field_simp
        ring
      · simp only [Nat.cast_add, Nat.cast_mul, ZMod.natCast_mod, natCast_neg, fieldInv_cast,
          Nat.cast_ofNat, WeierstrassCurve.Affine.addY, WeierstrassCurve.Affine.negAddY,
          WeierstrassCurve.Affine.addX, WeierstrassCurve.Affine.negY,
          WeierstrassCurve.Affine.slope_of_Y_ne rfl hneg]
        simp only [secp]
        field_simp
        ring



/-- Addition in the model is addition in the curve group. -/
theorem pointAdd_curve (a b : Point) (ha : pointGood a = true)
    (hb : pointGood b = true) :
    pointGood (pointAdd a b) = true ∧ toCurve (pointAdd a b) = toCurve a + toCurve b := by
  rcases pointGood_cases a ha with hinfa | ⟨hinfa, heqa⟩
  · have hd : pointAdd a b = b := by
      unfold pointAdd
      rw [hinfa]
      rfl
    rw [hd, toCurve_of_infinity a hinfa, zero_add]
    exact ⟨hb, rfl⟩
  rcases pointGood_cases b hb with hinfb | ⟨hinfb, heqb⟩
  · have hd : pointAdd a b = a := by
      unfold pointAdd
      rw [hinfa, hinfb]
      rfl
    rw [hd, toCurve_of_infinity b hinfb, add_zero]
    exact ⟨ha, rfl⟩
  have hnsa := secp_nonsingular _ _ heqa
  have hnsb := secp_nonsingular _ _ heqb
  by_cases hx : a.x % theCurveP = b.x % theCurveP
  · have hxF : ((a.x : Nat) : ZMod theCurveP) = ((b.x : Nat) : ZMod theCurveP) :=
      (natCast_eq_iff_mod _ _).mpr hx
    by_cases hy : a.y % theCurveP = b.y % theCurveP
    · have hyF : ((a.y : Nat) : ZMod theCurveP) = ((b.y : Nat) : ZMod theCurveP) :=
        (natCast_eq_iff_mod _ _).mpr hy
      have hd : pointAdd a b = pointDouble a := by
        unfold pointAdd
        rw [hinfa, hinfb]
        simp only [Bool.false_eq_true, if_false, hx, hy, if_true]
      have hab : toCurve b = toCurve a := by
        rw [toCurve_eq_some a hinfa _ _ hnsb hxF hyF, toCurve_eq_some b hinfb _ _ hnsb rfl rfl]
      rw [hd, hab]
      exact pointDouble_curve a ha
    · have hyF : ((a.y : Nat) : ZMod theCurveP) ≠ ((b.y : Nat) : ZMod theCurveP) :=
        fun h => hy ((natCast_eq_iff_mod _ _).mp h)
      have hd : pointAdd a b = ⟨0, 0, true⟩ := by
        unfold pointAdd
        rw [hinfa, hinfb]
        simp only [Bool.false_eq_true, if_false, hx, hy, if_true]
      have hneg : ((a.y : Nat) : ZMod theCurveP)
          = secp.toAffine.negY ((b.x : Nat) : ZMod theCurveP) ((b.y : Nat) : ZMod theCurveP) := by
        rw [secp_negY]
        rw [secp_equation_iff] at heqa heqb
        have hsq : ((a.y : Nat) : ZMod theCurveP) ^ 2 = ((b.y : Nat) : ZMod theCurveP) ^ 2 := by
          rw [heqa, heqb, hxF]
        rcases sq_eq_sq_iff_eq_or_eq_neg.mp hsq with h | h
        · exact absurd h hyF
        · exact h
      rw [hd, toCurve_infinity, toCurve_eq_some a hinfa _ _ hnsa rfl rfl,
        toCurve_eq_some b hinfb _ _ hnsb rfl rfl,
        WeierstrassCurve.Affine.Point.add_of_Y_eq hxF hneg]
      exact ⟨pointGood_infinity, rfl⟩
  · have hxF : ((a.x : Nat) : ZMod theCurveP) ≠ ((b.x : Nat) : ZMod theCurveP) :=
      fun h => hx ((natCast_eq_iff_mod _ _).mp h)
    have hd : pointAdd a b =
        ⟨((b.y % theCurveP + (theCurveP - a.y % theCurveP)) % theCurveP
              * fieldInv (b.x % theCurveP + (theCurveP - a.x % theCurveP)) % theCurveP
            * ((b.y % theCurveP + (theCurveP - a.y % theCurveP)) % theCurveP
              * fieldInv (b.x % theCurveP + (theCurveP - a.x % theCurveP)) % theCurveP)
            + (theCurveP - a.x % theCurveP) + (theCurveP - b.x % theCurveP)) % theCurveP,
          ((b.y % theCurveP + (theCurveP - a.y % theCurveP)) % theCurveP
              * fieldInv (b.x % theCurveP + (theCurveP - a.x % theCurveP)) % theCurveP
            * (a.x % theCurveP + (theCurveP -
              ((b.y % theCurveP + (theCurveP - a.y % theCurveP)) % theCurveP
                  * fieldInv (b.x % theCurveP + (theCurveP - a.x % theCurveP)) % theCurveP
                * ((b.y % theCurveP + (theCurveP - a.y % theCurveP)) % theCurveP
                  * fieldInv (b.x % theCurveP + (theCurveP - a.x % theCurveP)) % theCurveP)
                + (theCurveP - a.x % theCurveP) + (theCurveP - b.x % theCurveP)) % theCurveP))
            + (theCurveP - a.y % theCurveP)) % theCurveP, false⟩ := by
      unfold pointAdd
      rw [hinfa, hinfb]
      simp only [Bool.false_eq_true, if_false, hx]
    have hl : (((b.y : Nat) : ZMod theCurveP) + -((a.y : Nat) : ZMod theCurveP))
          * (((b.x : Nat) : ZMod theCurveP) + -((a.x : Nat) : ZMod theCurveP))⁻¹
        = (((a.y : Nat) : ZMod theCurveP) - ((b.y : Nat) : ZMod theCurveP))
          / (((a.x : Nat) : ZMod theCurveP) - ((b.x : Nat) : ZMod theCurveP)) := by
      have e1 : ((b.x : Nat) : ZMod theCurveP) + -((a.x : Nat) : ZMod theCurveP)
          = -(((a.x : Nat) : ZMod theCurveP) - ((b.x : Nat) : ZMod theCurveP)) := by ring
      have e2 : ((b.y : Nat) : ZMod theCurveP) + -((a.y : Nat) : ZMod theCurveP)
          = -(((a.y : Nat) : ZMod theCurveP) - ((b.y : Nat) : ZMod theCurveP)) := by ring
      rw [e1, e2, inv_neg, neg_mul_neg, div_eq_mul_inv]
    rw [hd, toCurve_eq_some a hinfa _ _ hnsa rfl rfl, toCurve_eq_some b hinfb _ _ hnsb rfl rfl,
      WeierstrassCurve.Affine.Point.add_of_X_ne hxF]
    apply curve_result _ rfl
    · simp only [Nat.cast_add, Nat.cast_mul, ZMod.natCast_mod, natCast_neg, fieldInv_cast,
        WeierstrassCurve.Affine.addX, WeierstrassCurve.Affine.slope_of_X_ne hxF]
      simp only [secp]
      rw [hl]
      ring
    · simp only [Nat.cast_add, Nat.cast_mul, ZMod.natCast_mod, natCast_neg, fieldInv_cast,
        WeierstrassCurve.Affine.addY, WeierstrassCurve.Affine.negAddY,
        WeierstrassCurve.Affine.addX, WeierstrassCurve.Affine.negY,
        WeierstrassCurve.Affine.slope_of_X_ne hxF]
      simp only [secp]
      rw [hl]
      ring



set_option maxRecDepth 1000000 in
set_option maxHeartbeats 0 in
theorem orderChain_ok : chainOk generator ⟨0, 0, true⟩ orderChain = true := by
  decide

theorem orderChain_value : chainValue 0 orderChain = secpOrder := by
  decide

theorem orderChain_last : chainLast ⟨0, 0, true⟩ orderChain = ⟨0, 0, true⟩ := by
  decide



/-- Scalar multiplication in the model is scalar multiplication in the curve group. -/
theorem pointMul_curve (fuel k : Nat) (a : Point)
    (ha : pointGood a = true) (hk : k < 2 ^ fuel) :
    pointGood (pointMul fuel k a) = true ∧ toCurve (pointMul fuel k a) = k • toCurve a := by
  induction fuel generalizing k with
  | zero =>
    have h0 : k = 0 := by
      rw [pow_zero] at hk
      omega
    subst h0
    unfold pointMul
    rw [toCurve_infinity, zero_nsmul]
    exact ⟨pointGood_infinity, rfl⟩
  | succ f ih =>
    unfold pointMul
    by_cases h0 : k = 0
    · rw [if_pos h0, h0, toCurve_infinity, zero_nsmul]
      exact ⟨pointGood_infinity, rfl⟩
    · rw [if_neg h0]
      have hlt : k / 2 < 2 ^ f := by
        rw [pow_succ] at hk
        omega
      obtain ⟨hg, hc⟩ := ih (k / 2) hlt
      obtain ⟨hdg, hdc⟩ := pointDouble_curve _ hg
      rw [hc, ← two_nsmul, ← mul_nsmul'] at hdc
      by_cases h1 : k % 2 = 1
      · simp only [h1, if_true]
        obtain ⟨hag, hac⟩ := pointAdd_curve _ a hdg ha
        refine ⟨hag, ?_⟩
        rw [hac, hdc, ← succ_nsmul]
        congr 1
        omega
      · simp only [h1, if_false]
        refine ⟨hdg, ?_⟩
        rw [hdc]
        congr 1
        omega

/-- A good point that represents the zero of the group has the flag `Infinity`. -/
theorem infinity_of_toCurve_zero (a : Point)
    (ha : pointGood a = true) (h : toCurve a = 0) : a.infinity = true := by
  rcases pointGood_cases a ha with hinf | ⟨hinf, heq⟩
  · exact hinf
  · rw [toCurve_eq_some a hinf _ _ (secp_nonsingular _ _ heq) rfl rfl] at h
    exact absurd h (WeierstrassCurve.Affine.Point.some_ne_zero _)

theorem two_pow_256_le : (2 : Nat) ^ 256 ≤ 2 ^ 512 := by
  apply Nat.pow_le_pow_right
  · decide
  · decide

theorem chainStep_curve (a prev : Point) (c : Nat)
    (ha : pointGood a = true) (hp : pointGood prev = true) (hc : c < 256) :
    pointGood (chainStep a prev c) = true ∧
    toCurve (chainStep a prev c) = 256 • toCurve prev + c • toCurve a := by
  unfold chainStep
  have h256 : (256 : Nat) < 2 ^ 512 :=
    Nat.lt_of_lt_of_le (Nat.lt_two_pow 256) two_pow_256_le
  obtain ⟨hg1, hc1⟩ := pointMul_curve 512 256 prev hp h256
  obtain ⟨hg2, hc2⟩ := pointMul_curve 512 c a ha (lt_trans hc h256)
  obtain ⟨hg, hcc⟩ := pointAdd_curve _ _ hg1 hg2
  exact ⟨hg, by rw [hcc, hc1, hc2]⟩

/-- A checked chain computes the multiple of the point by the scalar of the chain. -/
theorem chain_sound (a : Point) (ha : pointGood a = true)
    (l : List (Nat × Point)) (prev : Point) (v : Nat) (hp : pointGood prev = true)
    (hv : toCurve prev = v • toCurve a) (hsmall : ∀ e ∈ l, e.1 < 256)
    (hok : chainOk a prev l = true) :
    toCurve (chainLast prev l) = chainValue v l • toCurve a := by
  induction l generalizing prev v with
  | nil => exact hv
  | cons e rest ih =>
    obtain ⟨c, next⟩ := e
    unfold chainOk at hok
    rw [Bool.and_eq_true, decide_eq_true_eq] at hok
    obtain ⟨hstep, hrest⟩ := hok
    obtain ⟨hg, hcc⟩ := chainStep_curve a prev c ha hp (hsmall (c, next) (List.mem_cons_self _ _))
    rw [hstep] at hg hcc
    unfold chainLast chainValue
    apply ih next (v * 256 + c) hg _ (fun e he => hsmall e (List.mem_cons_of_mem _ he)) hrest
    rw [hcc, hv, ← mul_nsmul', ← add_nsmul]
    congr 1
    ring

theorem generator_good : pointGood generator = true := by decide

/-- The generator has order dividing `secpOrder` in the curve group. -/
theorem order_nsmul_generator :
    secpOrder • toCurve generator = 0 := by
  have h := chain_sound generator generator_good orderChain ⟨0, 0, true⟩ 0 pointGood_infinity
    (by rw [toCurve_infinity, zero_nsmul]) (by decide) orderChain_ok
  rw [orderChain_value, orderChain_last, toCurve_infinity] at h
  exact h.symm



/-! ## The order of the group of the curve -/

theorem secpOrder_prime : Nat.Prime secpOrder := secpOrder_prime_value

/-- The code of a point determines the point. -/
theorem curveCode_injective : Function.Injective curveCode := by
  intro P Q h
  cases P with
  | zero =>
    cases Q with
    | zero => rfl
    | some hQ => cases h
  | some hP =>
    cases Q with
    | zero => cases h
    | some hQ =>
      rename_i x y x2 y2
      unfold curveCode at h
      injection h with h
      injection h with hx hpar
      subst hx
      have e1 := (secp_equation_iff x y).mp hP.1
      have e2 := (secp_equation_iff x y2).mp hQ.1
      have hsq : (y - y2) * (y + y2) = 0 := by
        have : y ^ 2 = y2 ^ 2 := by rw [e1, e2]
        linear_combination this
      have hy : y = y2 := by
        rcases mul_eq_zero.mp hsq with h1 | h1
        · exact sub_eq_zero.mp h1
        · have hneg : y = -y2 := eq_neg_of_add_eq_zero_left h1
          by_cases h0 : y2 = 0
          · rw [hneg, h0, neg_zero]
          · exfalso
            haveI : NeZero theCurveP := ⟨theCurveP_prime.ne_zero⟩
            have hval : y.val = theCurveP - y2.val := by
              rw [hneg, ZMod.neg_val, if_neg h0]
            have hlt : y2.val < theCurveP := ZMod.val_lt y2
            have hpos : 0 < y2.val := Nat.pos_of_ne_zero (fun hz => h0 ((ZMod.val_eq_zero y2).mp hz))
            have hodd : theCurveP % 2 = 1 := by decide
            rw [hval] at hpar
            have hpar2 := decide_eq_decide.mp hpar
            omega
      subst hy
      rfl

theorem curve_finite : Finite secp.toAffine.Point :=
  Finite.of_injective curveCode curveCode_injective

/-- The curve has at most `2 p + 1` points. -/
theorem curve_card_le : Nat.card secp.toAffine.Point ≤ 2 * theCurveP + 1 := by
  haveI : NeZero theCurveP := ⟨theCurveP_prime.ne_zero⟩
  have h := Nat.card_le_card_of_injective curveCode curveCode_injective
  have hc : Nat.card (Option (ZMod theCurveP × Bool)) = theCurveP * 2 + 1 := by
    rw [Nat.card_eq_fintype_card, Fintype.card_option, Fintype.card_prod, ZMod.card,
      Fintype.card_bool]
  omega

set_option maxRecDepth 100000 in
theorem cube_test_value :
    powMod 115792089237316195423570985008687907853269984665640564039457584007908834671663 256
      (115792089237316195423570985008687907853269984665640564039457584007908834671663 - 7)
      ((115792089237316195423570985008687907853269984665640564039457584007908834671663 - 1) / 3) 1
      % 115792089237316195423570985008687907853269984665640564039457584007908834671663 ≠ 1 := by
  decide

/-- Euler's criterion for cubes fails on `-7`. -/
theorem cube_test :
    powMod theCurveP 256 (theCurveP - 7) ((theCurveP - 1) / 3) 1 % theCurveP ≠ 1 := by
  rw [theCurveP_eq]
  exact cube_test_value

theorem three_mul_div : 3 * ((theCurveP - 1) / 3) = theCurveP - 1 := by
  rw [theCurveP_eq]

theorem cube_exponent_lt : (theCurveP - 1) / 3 < 2 ^ 256 := by
  rw [theCurveP_eq]
  decide

theorem seven_le_theCurveP : 7 ≤ theCurveP := by
  rw [theCurveP_eq]
  decide

theorem one_mod_theCurveP : 1 % theCurveP = 1 := by
  rw [theCurveP_eq]

/-- No cube is `-7` in the field: the curve has no point with `y = 0`. -/
theorem cube_ne_neg_seven (x : ZMod theCurveP) : x ^ 3 + 7 ≠ 0 := by
  intro h
  have hx0 : x ≠ 0 := by
    intro hx
    rw [hx] at h
    simp at h
    exact seven_ne_zero_secp h
  have hcube : x ^ 3 = ((theCurveP - 7 : Nat) : ZMod theCurveP) := by
    rw [Nat.cast_sub seven_le_theCurveP, ZMod.natCast_self, zero_sub]
    push_cast
    exact eq_neg_of_add_eq_zero_left h
  have hpow : (((theCurveP - 7) ^ ((theCurveP - 1) / 3) : Nat) : ZMod theCurveP) = 1 := by
    rw [Nat.cast_pow, ← hcube, ← pow_mul, three_mul_div]
    exact ZMod.pow_card_sub_one_eq_one hx0
  have hmod : (theCurveP - 7) ^ ((theCurveP - 1) / 3) % theCurveP = 1 := by
    have h1 : (((theCurveP - 7) ^ ((theCurveP - 1) / 3) : Nat) : ZMod theCurveP)
        = ((1 : Nat) : ZMod theCurveP) := by
      rw [hpow, Nat.cast_one]
    rw [(ZMod.natCast_eq_natCast_iff' _ 1 theCurveP).mp h1, one_mod_theCurveP]
  have hspec := powMod_spec theCurveP 256 (theCurveP - 7) ((theCurveP - 1) / 3) 1
    cube_exponent_lt
  rw [Nat.one_mul, hmod] at hspec
  exact cube_test hspec

/-- The group of the curve has no element of order two. -/
theorem curve_two_nsmul (P : secp.toAffine.Point) (h : 2 • P = 0) : P = 0 := by
  cases P with
  | zero => rfl
  | some hP =>
    rename_i x y
    exfalso
    rw [two_nsmul, add_eq_zero_iff_eq_neg, WeierstrassCurve.Affine.Point.neg_some] at h
    injection h with _ hy
    rw [secp_negY] at hy
    have h2 : (2 : ZMod theCurveP) * y = 0 := by
      rw [two_mul]
      nth_rewrite 1 [hy]
      exact neg_add_cancel y
    have hy0 : y = 0 := by
      rcases mul_eq_zero.mp h2 with h | h
      · exact absurd h two_ne_zero_secp
      · exact h
    have e := (secp_equation_iff x y).mp hP.1
    rw [hy0] at e
    apply cube_ne_neg_seven x
    rw [← e]
    ring

set_option maxRecDepth 100000 in
theorem generator_valid : pointIsValid generator = true := by decide

theorem toCurve_generator_ne_zero : toCurve generator ≠ 0 := by
  have h := (pointIsValid_iff generator).mp generator_valid
  rw [toCurve_eq_some generator h.1 _ _ (secp_nonsingular _ _ h.2) rfl rfl]
  exact WeierstrassCurve.Affine.Point.some_ne_zero _

/-- The group of the curve has `secpOrder` elements. -/
theorem curve_card : Nat.card secp.toAffine.Point = secpOrder := by
  haveI := curve_finite
  haveI : Fact (Nat.Prime secpOrder) := ⟨secpOrder_prime⟩
  have hG : addOrderOf (toCurve generator) = secpOrder :=
    addOrderOf_eq_prime order_nsmul_generator toCurve_generator_ne_zero
  have hdvd : secpOrder ∣ Nat.card secp.toAffine.Point := by
    rw [← hG]
    exact addOrderOf_dvd_natCard _
  obtain ⟨k, hk⟩ := hdvd
  have hle := curve_card_le
  have hpos : 0 < Nat.card secp.toAffine.Point := Nat.card_pos
  have hbound : 2 * theCurveP + 1 < secpOrder * 3 := by decide
  have hk3 : k < 3 := by
    by_contra hge
    have : secpOrder * 3 ≤ secpOrder * k := Nat.mul_le_mul_left _ (by omega)
    omega
  have hk0 : k ≠ 0 := by
    intro h0
    rw [h0, Nat.mul_zero] at hk
    omega
  have hk2 : k ≠ 2 := by
    intro h2
    haveI : Fact (Nat.Prime 2) := ⟨Nat.prime_two⟩
    have hd2 : 2 ∣ Nat.card secp.toAffine.Point := ⟨secpOrder, by rw [hk, h2, Nat.mul_comm]⟩
    obtain ⟨P, hP⟩ := exists_prime_addOrderOf_dvd_card' 2 hd2
    have h2P : 2 • P = 0 := by
      rw [← hP]
      exact addOrderOf_nsmul_eq_zero P
    have hP0 := curve_two_nsmul P h2P
    rw [hP0, addOrderOf_zero] at hP
    omega
  have hk1 : k = 1 := by omega
  rw [hk, hk1, Nat.mul_one]

/-- The order of the group annihilates every point of the curve. -/
theorem order_nsmul (P : secp.toAffine.Point) : secpOrder • P = 0 := by
  rw [← curve_card]
  exact card_nsmul_eq_zero'



/-! ## The recovered key -/

/-- Scalars count modulo `n` on a point that `n` annihilates. -/
theorem nsmul_mod_of_nsmul_eq_zero {A : Type} [AddCommMonoid A] (n : Nat) (P : A)
    (hP : n • P = 0) (a : Nat) : a • P = (a % n) • P := by
  conv_lhs => rw [← Nat.div_add_mod a n]
  rw [add_nsmul, mul_nsmul, hP, nsmul_zero, zero_add]

/-- With `rn * R = 1 (mod n)`: `R * (rn * S mod n) = S (mod n)`. -/
theorem recover_scalar_S (n rn R S : Nat) (hinv : rn * R % n = 1) :
    R * (rn * S % n) % n = S % n := by
  have h1 : 1 % n = 1 := by
    rw [← hinv, Nat.mod_mod]
  have hone : rn * R ≡ 1 [MOD n] := by
    unfold Nat.ModEq
    rw [hinv, h1]
  have hA : R * (rn * S % n) ≡ S [MOD n] := by
    calc R * (rn * S % n) ≡ R * (rn * S) [MOD n] := (Nat.mod_modEq _ _).mul_left _
      _ = rn * R * S := by ring
      _ ≡ 1 * S [MOD n] := hone.mul_right _
      _ = S := one_mul _
  exact hA

/-- With `rn * R = 1 (mod n)`: `R * (n - (rn * m mod n)) + m = 0 (mod n)`. -/
theorem recover_scalar_e (n rn R m : Nat) (hpos : 0 < n) (hinv : rn * R % n = 1) :
    (R * (n - rn * m % n) + m) % n = 0 := by
  have h1 : 1 % n = 1 := by
    rw [← hinv, Nat.mod_mod]
  have hone : rn * R ≡ 1 [MOD n] := by
    unfold Nat.ModEq
    rw [hinv, h1]
  have hxlt : rn * m % n < n := Nat.mod_lt _ hpos
  have hRx : R * (rn * m % n) ≡ m [MOD n] := by
    calc R * (rn * m % n) ≡ R * (rn * m) [MOD n] := (Nat.mod_modEq _ _).mul_left _
      _ = rn * R * m := by ring
      _ ≡ 1 * m [MOD n] := hone.mul_right _
      _ = m := one_mul _
  have hB : R * (n - rn * m % n) + m ≡ 0 [MOD n] := by
    have hsum : R * (n - rn * m % n) + m + R * (rn * m % n) ≡ 0 + m [MOD n] := by
      have e : R * (n - rn * m % n) + m + R * (rn * m % n) = n * R + m := by
        have e2 : R * (n - rn * m % n) + R * (rn * m % n) = R * n := by
          rw [← Nat.mul_add, Nat.sub_add_cancel (Nat.le_of_lt hxlt)]
        calc R * (n - rn * m % n) + m + R * (rn * m % n)
            = R * (n - rn * m % n) + R * (rn * m % n) + m := by ring
          _ = R * n + m := by rw [e2]
          _ = n * R + m := by ring
      rw [e, zero_add]
      unfold Nat.ModEq
      rw [Nat.mul_add_mod]
    exact Nat.ModEq.add_right_cancel hRx hsum
  exact hB

theorem secpOrder_lt : secpOrder < 2 ^ 512 :=
  Nat.lt_of_lt_of_le (by decide : secpOrder < 2 ^ 256) two_pow_256_le

/-- What `recover` has computed on the library `gocoin` when it returns true. -/
theorem recover_gocoin_inv (sig : Signature) (pubkey Q : Point) (m : Nat) (recid : Int)
    (h : recover gocoin sig pubkey m recid = Res.ok (true, Q)) :
    pointIsValid (pointSetXO (if Int.land recid 2 ≠ 0 then sig.R + secpOrder else sig.R)
      (decide (Int.land recid 1 ≠ 0))) = true ∧
    Q = pointECmult (pointSetXO (if Int.land recid 2 ≠ 0 then sig.R + secpOrder else sig.R)
        (decide (Int.land recid 1 ≠ 0)))
      (modInverse sig.R secpOrder * sig.S % secpOrder)
      (secpOrder - modInverse sig.R secpOrder * m % secpOrder) := by
  obtain ⟨b32, hb, hv, hQ⟩ := recover_true_inv gocoin sig pubkey m recid Q h
  obtain ⟨-, hval⟩ := getBin_ok _ _ _ hb
  have e : beNat b32 = (if Int.land recid 2 ≠ 0 then sig.R + secpOrder else sig.R) := hval
  dsimp only [gocoin, id_eq] at hv hQ
  rw [e] at hv hQ
  exact ⟨hv, hQ⟩

theorem pointGood_of_valid (a : Point) (h : pointIsValid a = true) : pointGood a = true := by
  unfold pointGood
  rw [h, Bool.or_true]

/-- The point computed by `ECmult` in the group of the curve: `na * a + ng * G`. -/
theorem pointECmult_curve (a : Point) (na ng : Nat) (ha : pointGood a = true)
    (hna : na < 2 ^ 512) (hng : ng < 2 ^ 512) :
    pointGood (pointECmult a na ng) = true ∧
    toCurve (pointECmult a na ng) = na • toCurve a + ng • toCurve generator := by
  unfold pointECmult
  obtain ⟨hg1, hc1⟩ := pointMul_curve 512 na a ha hna
  obtain ⟨hg2, hc2⟩ := pointMul_curve 512 ng generator generator_good hng
  obtain ⟨hg, hc⟩ := pointAdd_curve _ _ hg1 hg2
  exact ⟨hg, by rw [hc, hc1, hc2]⟩

/-- The recovery identity in the group of the curve. -/
theorem recover_identity (Rp Q : secp.toAffine.Point) (R S m rn : Nat)
    (hQ : Q = (secpOrder - rn * m % secpOrder) • toCurve generator
      + (rn * S % secpOrder) • Rp)
    (hinv : rn * R % secpOrder = 1) :
    R • Q + m • toCurve generator = S • Rp := by
  have hG := order_nsmul (toCurve generator)
  have hord := order_nsmul Rp
  rw [hQ, nsmul_add, ← mul_nsmul', ← mul_nsmul', add_assoc,
    add_comm _ (m • toCurve generator), ← add_assoc, ← add_nsmul]
  rw [nsmul_mod_of_nsmul_eq_zero secpOrder _ hG (R * (secpOrder - rn * m % secpOrder) + m),
    nsmul_mod_of_nsmul_eq_zero secpOrder _ hord (R * (rn * S % secpOrder)),
    recover_scalar_e secpOrder rn R m (by decide) hinv, recover_scalar_S secpOrder rn R S hinv,
    zero_nsmul, zero_add, ← nsmul_mod_of_nsmul_eq_zero secpOrder _ hord]

/-- The recovered key in solved form: `Q = rn * (S * R_point - e * G)`. -/
theorem recover_solved (Rp Q : secp.toAffine.Point) (S m rn : Nat)
    (hQ : Q = (secpOrder - rn * m % secpOrder) • toCurve generator
      + (rn * S % secpOrder) • Rp) :
    Q = rn • (S • Rp - m • toCurve generator) := by
  have hG := order_nsmul (toCurve generator)
  have hord := order_nsmul Rp
  have hlt : rn * m % secpOrder < secpOrder := Nat.mod_lt _ (by decide)
  have hneg : (secpOrder - rn * m % secpOrder) • toCurve generator
      = -((rn * m) • toCurve generator) := by
    apply eq_neg_of_add_eq_zero_left
    rw [nsmul_mod_of_nsmul_eq_zero secpOrder _ hG (rn * m), ← add_nsmul,
      Nat.sub_add_cancel (Nat.le_of_lt hlt), hG]
  rw [hQ, hneg, ← nsmul_mod_of_nsmul_eq_zero secpOrder _ hord, nsmul_sub, ← mul_nsmul',
    ← mul_nsmul']
  abel

theorem powMod_lt (m fuel base e acc : Nat) (hacc : acc < m) :
    powMod m fuel base e acc < m := by
  induction fuel generalizing base e acc with
  | zero => exact hacc
  | succ f ih =>
    unfold powMod
    by_cases h0 : e = 0
    · rw [if_pos h0]
      exact hacc
    · rw [if_neg h0]
      apply ih
      by_cases h1 : e % 2 = 1
      · rw [if_pos h1]
        exact Nat.mod_lt _ (Nat.lt_of_le_of_lt (Nat.zero_le _) hacc)
      · rw [if_neg h1]
        exact hacc

theorem one_lt_theCurveP : 1 < theCurveP := by
  rw [theCurveP_eq]
  decide

theorem theCurveP_odd : theCurveP % 2 = 1 := by
  rw [theCurveP_eq]

/-- The parity of the y-coordinate chosen by `SetXO`. -/
theorem pointSetXO_parity (x : Nat) (odd : Bool) (hy : (pointSetXO x odd).y ≠ 0) :
    (pointSetXO x odd).y % 2 = 1 ↔ odd = true := by
  have hlt : fieldSqrt (x * x % theCurveP * x + 7) < theCurveP :=
    powMod_lt _ _ _ _ _ one_lt_theCurveP
  have hodd := theCurveP_odd
  unfold pointSetXO at hy ⊢
  dsimp only at hy ⊢
  generalize fieldSqrt (x * x % theCurveP * x + 7) = y0 at hlt hy ⊢
  by_cases hp : y0 % 2 = 1
  · cases odd with
    | true =>
      simp only [hp, decide_True, bne_self_eq_false, Bool.false_eq_true, if_false]
    | false =>
      have hne : (decide (y0 % 2 = 1) != false) = true := by
        rw [decide_eq_true hp]
        rfl
      rw [if_pos hne]
      have hlt2 : theCurveP - y0 < theCurveP := by omega
      rw [Nat.mod_eq_of_lt hlt2]
      constructor
      · intro h
        omega
      · intro h
        cases h
  · cases odd with
    | true =>
      have hne : (decide (y0 % 2 = 1) != true) = true := by
        rw [decide_eq_false hp]
        rfl
      rw [if_pos hne] at hy ⊢
      have hy0 : y0 ≠ 0 := by
        intro h0
        rw [h0, Nat.sub_zero, Nat.mod_self] at hy
        exact hy rfl
      have hlt2 : theCurveP - y0 < theCurveP := by omega
      rw [Nat.mod_eq_of_lt hlt2]
      constructor
      · intro _
        rfl
      · intro _
        omega
    | false =>
      have hne : ¬ (decide (y0 % 2 = 1) != false) = true := by
        rw [decide_eq_false hp]
        decide
      rw [if_neg hne]
      constructor
      · intro h
        exact absurd h hp
      · intro h
        cases h

/-- C9: whenever `recover` returns true on the library `gocoin`, the candidate
point `R_point` that `SetXO` builds has the x-coordinate `rx` and the
y-parity `recid & 1` (for a non-zero y) and is on the curve; the key `Q`
written is the point at infinity or a point of the curve, and in the group
of the curve `y² = x³ + 7` over the integers modulo the field prime, which
has `order` elements, `Q = u1*G + u2*R_point` with
`u1 = order - (rInv * e) mod order` and `u2 = (rInv * S) mod order`, where
`rInv` is `ModInverse(R, order)`. Consequently, when
`rInv * R = 1 (mod order)`, `R*Q + e*G = S*R_point` and
`Q = rInv * (S*R_point - e*G)` in that group. -/
theorem recover_formula (sig : Signature) (pubkey Q : Point) (m : Nat) (recid : Int)
    (h : recover gocoin sig pubkey m recid = Res.ok (true, Q)) :
    let rx := if Int.land recid 2 ≠ 0 then sig.R + secpOrder else sig.R
    let Rp := pointSetXO rx (decide (Int.land recid 1 ≠ 0))
    let rInv := modInverse sig.R secpOrder
    let u1 := secpOrder - rInv * m % secpOrder
    let u2 := rInv * sig.S % secpOrder
    Rp.x = rx ∧ (Rp.y ≠ 0 → (Rp.y % 2 = 1 ↔ Int.land recid 1 ≠ 0)) ∧
    pointIsValid Rp = true ∧
    (Q.infinity = true ∨ pointIsValid Q = true) ∧
    Nat.card secp.toAffine.Point = gocoin.order ∧
    toCurve Q = u1 • toCurve generator + u2 • toCurve Rp ∧
    (rInv * sig.R % secpOrder = 1 →
      sig.R • toCurve Q + m • toCurve generator = sig.S • toCurve Rp ∧
      toCurve Q = rInv • (sig.S • toCurve Rp - m • toCurve generator)) := by
  intro rx Rp rInv u1 u2
  obtain ⟨hv, hQ⟩ := recover_gocoin_inv sig pubkey Q m recid h
  have hu1 : u1 < 2 ^ 512 := lt_of_le_of_lt (Nat.sub_le _ _) secpOrder_lt
  have hu2 : u2 < 2 ^ 512 := lt_trans (Nat.mod_lt _ (by decide)) secpOrder_lt
  obtain ⟨hg, hc⟩ := pointECmult_curve Rp u2 u1 (pointGood_of_valid Rp hv) hu2 hu1
  have hQ2 : Q = pointECmult Rp u2 u1 := hQ
  rw [← hQ2] at hg hc
  have hc2 : toCurve Q = u1 • toCurve generator + u2 • toCurve Rp := by
    rw [hc, add_comm]
  refine ⟨rfl, ?_, hv, ?_, curve_card, hc2, ?_⟩
  · intro hy
    rw [pointSetXO_parity rx _ hy, decide_eq_true_eq]
  · unfold pointGood at hg
    rw [Bool.or_eq_true] at hg
    exact hg
  · intro hinv
    exact ⟨recover_identity (toCurve Rp) (toCurve Q) sig.R sig.S m rInv hc2 hinv,
      recover_solved (toCurve Rp) (toCurve Q) sig.S m rInv hc2⟩

/-- The result of `recover` on the library `gocoin` when `recid & 2 = 0`, the number `R`
fits in 32 bytes and the candidate point is on the curve. -/
theorem recover_gocoin_low (sig : Signature) (pubkey : Point) (m : Nat) (recid : Int)
    (h2 : Int.land recid 2 = 0) (hR : sig.R < 256 ^ 32)
    (hv : pointIsValid (pointSetXO sig.R (decide (Int.land recid 1 ≠ 0))) = true) :
    recover gocoin sig pubkey m recid
      = Res.ok (true, pointECmult (pointSetXO sig.R (decide (Int.land recid 1 ≠ 0)))
          (modInverse sig.R secpOrder * sig.S % secpOrder)
          (secpOrder - modInverse sig.R secpOrder * m % secpOrder)) := by
  unfold recover
  rw [if_neg (not_not.mpr h2)]
  unfold recoverPoint
  rw [getBin_of_lt sig.R 32 hR, Res.bind_ok]
  dsimp only [gocoin, id_eq]
  rw [beNat_zeros_append, beNat_natBytes, hv]
  rfl

/-- With `rn * g = 1 (mod n)` and `g ≤ n`: `n - (rn * (n - g) mod n) = 1`. -/
theorem recover_scalar_neg (n rn g : Nat) (hpos : 0 < n) (hg : g ≤ n)
    (hinv : rn * g % n = 1) : n - rn * (n - g) % n = 1 := by
  have hx : (rn * (n - g) % n + 1) % n = 0 := by
    have h1 : (rn * (n - g) % n + rn * g % n) % n = (rn * (n - g) + rn * g) % n :=
      (Nat.add_mod _ _ _).symm
    rw [hinv] at h1
    rw [h1, ← Nat.mul_add, Nat.sub_add_cancel hg, Nat.mul_mod_left]
  have hlt : rn * (n - g) % n < n := Nat.mod_lt _ hpos
  generalize rn * (n - g) % n = x at hx hlt
  have hd : n ∣ x + 1 := Nat.dvd_of_mod_eq_zero hx
  have hle := Nat.le_of_dvd (Nat.succ_pos x) hd
  omega

set_option maxRecDepth 100000 in
theorem pointSetXO_generator : pointSetXO generator.x false = generator := by decide

theorem gcd_generator_order : Nat.gcd generator.x secpOrder = 1 := by decide

set_option maxRecDepth 100000 in
theorem pointECmult_generator_one : pointECmult generator 1 1 = twoG := by decide

theorem land_zero_one : decide (Int.land 0 1 ≠ 0) = false := by decide

/-- The inverse of the x-coordinate of `generator` modulo the order. -/
theorem modInverse_generator :
    modInverse generator.x secpOrder * generator.x % secpOrder = 1 :=
  modInverse_mul_mod generator.x secpOrder gcd_generator_order (by decide)

/-- On the signature `sigOfGenerator` and the hash `order - x(G)`, `recover` writes `2 G`. -/
theorem recover_sigOfGenerator :
    recover gocoin sigOfGenerator ⟨0, 0, false⟩ (secpOrder - generator.x) 0
      = Res.ok (true, twoG) := by
  have hu1 := recover_scalar_neg secpOrder (modInverse generator.x secpOrder) generator.x
    (by decide) (by decide) modInverse_generator
  have hrec := recover_gocoin_low sigOfGenerator ⟨0, 0, false⟩ (secpOrder - generator.x) 0
    (by decide) (by decide)
    (by
      rw [land_zero_one]
      exact pointSetXO_generator.symm ▸ generator_valid)
  rw [hrec, land_zero_one]
  have e : sigOfGenerator.R = generator.x := rfl
  have e2 : sigOfGenerator.S = generator.x := rfl
  rw [e, e2, pointSetXO_generator, modInverse_generator, hu1, pointECmult_generator_one]

theorem generator_y_ne_zero : generator.y ≠ 0 := by decide

theorem recover_formula_witness :
    recover gocoin sigOfGenerator ⟨0, 0, false⟩ (secpOrder - generator.x) 0
      = Res.ok (true, twoG) ∧
    modInverse sigOfGenerator.R secpOrder * sigOfGenerator.R % secpOrder = 1 ∧
    pointSetXO sigOfGenerator.R false = generator ∧
    generator.y ≠ 0 ∧ (generator.y % 2 = 1 ↔ Int.land 0 1 ≠ 0) ∧
    pointIsValid generator = true ∧
    toCurve twoG = 1 • toCurve generator + 1 • toCurve generator ∧
    sigOfGenerator.R • toCurve twoG + (secpOrder - generator.x) • toCurve generator
      = sigOfGenerator.S • toCurve generator ∧
    toCurve twoG = modInverse sigOfGenerator.R secpOrder
      • (sigOfGenerator.S • toCurve generator - (secpOrder - generator.x) • toCurve generator) := by
  have hu1 := recover_scalar_neg secpOrder (modInverse generator.x secpOrder) generator.x
    (by decide) (by decide) modInverse_generator
  have H := recover_formula sigOfGenerator ⟨0, 0, false⟩ twoG (secpOrder - generator.x) 0
    recover_sigOfGenerator
  dsimp only at H
  obtain ⟨-, hpar, hv, -, -, hc, hcons⟩ := H
  have e : sigOfGenerator.R = generator.x := rfl
  have e2 : sigOfGenerator.S = generator.x := rfl
  have e3 : (if Int.land 0 2 ≠ 0 then generator.x + secpOrder else generator.x) = generator.x :=
    if_neg (by decide)
  rw [e, e3, land_zero_one, pointSetXO_generator] at hpar hv
  rw [e, e2, e3, land_zero_one, pointSetXO_generator, modInverse_generator, hu1] at hc
  rw [e, e2, e3, land_zero_one, pointSetXO_generator] at hcons
  have hcons2 := hcons modInverse_generator
  refine ⟨recover_sigOfGenerator, ?_, ?_, generator_y_ne_zero, hpar generator_y_ne_zero, hv,
    hc, ?_, ?_⟩
  · rw [e]
    exact modInverse_generator
  · rw [e]
    exact pointSetXO_generator
  · rw [e, e2]
    exact hcons2.1
  · rw [e, e2]
    exact hcons2.2

end Bitcoin
